import Mathlib

/-!
A shallow embedding of the FSICFR dark-hex solver (`Projects/CFR/fsicfr.py`):
the `Node` record with its regret-matching accumulators, the two-pass
training iteration of `FSICFR.train`, and the depth-first graph builder
`FSICFR.__init_board_topSorted` / `FSICFR.__topSort_play`.

Python floats are modelled as rationals (`ℚ`).  The board-game rule engine
(`Projects.base.game.hex.Hex` / `darkHex.DarkHex`) is an external
collaborator of the core and is not part of the analysed sources; it is
modelled abstractly: the trainer takes a game-status oracle
`gs : Board → Option Player` (the result of `Hex(BOARD=node.board).game_status()`,
`some p` for a declared winner and `none` for `'='`), and the graph builder
is parametrised by an `Engine` structure exposing exactly the operations the
builder calls (`turn_info`, `BOARDS`, `move_history`, `totalHidden_for_player`,
`valid_moves_colors`, `step`, and the legality-check `Hex` construction).
-/

set_option maxHeartbeats 1000000

namespace FSICFR

/-- The two players (`pieces.C_PLAYER1` and `pieces.C_PLAYER2`). -/
inductive Player where
  | P1 : Player
  | P2 : Player
deriving DecidableEq, Repr

/-- `reverse_player` from the source. -/
def reversePlayer : Player → Player
  | Player.P1 => Player.P2
  | Player.P2 => Player.P1

/-- One cell of a visible board: neutral (`'.'`) or a player's stone. -/
inductive Cell where
  | neutral : Cell
  | occ : Player → Cell
deriving DecidableEq, Repr

/-- A (visible) board, a flat list of cells. -/
abbrev Board := List Cell

/-- An information-set key, `get_infoset([self.player, *self.board, self.h])`. -/
abbrev IKey := Player × Board × Nat

/-- The per-information-set record `Node` of the source, with every numeric
field over `ℚ`. -/
structure Node where
  player : Player
  numActions : Nat
  moveHistory : List Nat
  board : Board
  h : Nat
  strategy : List ℚ
  regretSum : List ℚ
  strategySum : List ℚ
  T : ℚ
  u : ℚ
  pSum1 : ℚ
  pSum2 : ℚ
  visits : ℚ
  posActions : List Nat
  isTerminal : Bool
deriving DecidableEq, Repr

instance : Inhabited Node :=
  ⟨{ player := Player.P1, numActions := 0, moveHistory := [], board := [],
     h := 0, strategy := [], regretSum := [], strategySum := [],
     T := 0, u := 0, pSum1 := 0, pSum2 := 0, visits := 0,
     posActions := [], isTerminal := false }⟩

/-- `self.infoSet = get_infoset([self.player, *self.board, self.h])`. -/
def Node.infoSet (nd : Node) : IKey := (nd.player, nd.board, nd.h)

/-- `Node.__init__`: fresh accumulators, `T = 0`, `u = 0`,
`pSum1 = pSum2 = visits = 1`, `pos_actions` the indices of neutral cells,
`is_terminal = False`. -/
def mkNode (board : Board) (moveHistory : List Nat) (player : Player) (h : Nat) : Node :=
  { player := player
    numActions := board.length
    moveHistory := moveHistory
    board := board
    h := h
    strategy := List.replicate board.length 0
    regretSum := List.replicate board.length 0
    strategySum := List.replicate board.length 0
    T := 0
    u := 0
    pSum1 := 1
    pSum2 := 1
    visits := 1
    posActions := (List.range board.length).filter (fun i => decide (board.getD i Cell.neutral = Cell.neutral))
    isTerminal := false }

/-- The `normalizingSum` of `Node.getStrategy`: the sum of the positive parts
of `regretSum` over the indices of `strategy`. -/
def normalizingSum (nd : Node) : ℚ :=
  ((List.range nd.strategy.length).map (fun a => max (nd.regretSum.getD a 0) 0)).sum

/-- The strategy vector written into `self.strategy` by `Node.getStrategy`:
positive regrets normalised, or the uniform distribution over all action
indices when the normalising sum is not positive. -/
def computeStrategy (nd : Node) : List ℚ :=
  let S := normalizingSum nd
  (List.range nd.strategy.length).map (fun a =>
    if 0 < S then max (nd.regretSum.getD a 0) 0 / S else 1 / (nd.strategy.length : ℚ))

/-- The reach weight `self.pSum1 if self.player == pieces.C_PLAYER1 else self.pSum2`
used in the `strategySum` side effect of `Node.getStrategy`. -/
def Node.reach (nd : Node) : ℚ := if nd.player = Player.P1 then nd.pSum1 else nd.pSum2

/-- `Node.getStrategy`: store the recomputed strategy and add
`strategy[a] * reach` into `strategySum[a]`; the returned array is the stored
`self.strategy`. -/
def getStrategyNode (nd : Node) : Node :=
  let s := computeStrategy nd
  { nd with
    strategy := s
    strategySum := (List.range nd.strategy.length).map
      (fun a => nd.strategySum.getD a 0 + s.getD a 0 * nd.reach) }

/-- The probability vector `Node.getAverageStrategy` writes back into
`self.strategySum`. -/
def averageStrategyList (nd : Node) : List ℚ :=
  let S := nd.strategySum.sum
  (List.range nd.strategySum.length).map (fun a =>
    if 0 < S then nd.strategySum.getD a 0 / S else 1 / (nd.strategySum.length : ℚ))

/-- `Node.getAverageStrategy`: the updated node together with the returned
list (the source returns the mutated `self.strategySum` itself). -/
def getAverageStrategyNode (nd : Node) : Node × List ℚ :=
  let ss := averageStrategyList nd
  ({ nd with strategySum := ss }, ss)

/-- The up-to-two successor information sets derived from a node and an action
`a` in `FSICFR.train`: the node's own stone placed at `a` with `h` unchanged,
and, when `h > 0`, the opponent's stone placed at `a` with `h - 1`.
`__add_stone` succeeds exactly when cell `a` is neutral; both passes only
reach this point for a neutral cell `a` (the forward pass takes `a` from
`pos_actions`, the backward pass checks `__add_stone` first), so the
successful `new_board` is `board.set a stone`. -/
def childKeys (nd : Node) (a : Nat) : List IKey :=
  (nd.player, nd.board.set a (Cell.occ nd.player), nd.h) ::
    (if 0 < nd.h then [(nd.player, nd.board.set a (Cell.occ (reversePlayer nd.player)), nd.h - 1)] else [])

/-- Dictionary lookup `self.nodes_dict[infoset_c]`: the index of the node
carrying the key (in the running program list and dictionary hold the same
node objects, inserted together under the same guard). -/
def findNodeIdx (ns : List Node) (key : IKey) : Option Nat :=
  ns.findIdx? (fun m => decide (m.infoSet = key))

/-- One child update of the forward pass (lines 103-109 of the source):
`c.visits += node.visits` and the reach-weight pushes into `c.pSum1`/`c.pSum2`,
the acting player's own slot scaled by `strategy[a]`. -/
def fwdUpdateChild (ns : List Node) (parent : Node) (sa : ℚ) (key : IKey) : List Node :=
  match findNodeIdx ns key with
  | none => ns
  | some j =>
    let c := ns.getD j default
    ns.set j { c with
      visits := c.visits + parent.visits
      pSum1 := c.pSum1 + (if parent.player = Player.P1 then sa * parent.pSum1 else parent.pSum1)
      pSum2 := c.pSum2 + (if parent.player = Player.P2 then sa * parent.pSum2 else parent.pSum2) }

/-- Forward-pass processing of the node at index `i`: `getStrategy`, then for
each `a` in `pos_actions` push reach weights into every successor present in
the dictionary. -/
def processForward (ns : List Node) (i : Nat) : List Node :=
  match ns[i]? with
  | none => ns
  | some nd0 =>
    let nd := getStrategyNode nd0
    let ns1 := ns.set i nd
    nd.posActions.foldl (fun acc a =>
      (childKeys nd a).foldl (fun acc2 key => fwdUpdateChild acc2 nd (nd.strategy.getD a 0) key) acc) ns1

/-- The forward pass folded over an explicit index list. -/
def fwdSteps (L : List Nat) (ns : List Node) : List Node := L.foldl processForward ns

/-- The full forward pass, `for node in self.nodes`. -/
def forwardPass (ns : List Node) : List Node := fwdSteps (List.range ns.length) ns

/-- `node.u += d` on the node at index `i`. -/
def addU (ns : List Node) (i : Nat) (d : ℚ) : List Node :=
  match ns[i]? with
  | none => ns
  | some m => ns.set i { m with u := m.u + d }

/-- `node.u = v` on the node at index `i`. -/
def setUVal (ns : List Node) (i : Nat) (v : ℚ) : List Node :=
  match ns[i]? with
  | none => ns
  | some m => ns.set i { m with u := v }

/-- One backward-pass child visit (lines 135-142 of the source): when the
successor key is in the dictionary, read `childUtil` from the child's current
`u` (negated across a player switch), add it into the shared scratch
`regret[a]`, and add `strategy[a] * childUtil` into the node's `u`. -/
def bwdChild (i : Nat) (pl : Player) (sa : ℚ) (st : List Node × (Nat → ℚ))
    (a : Nat) (key : IKey) : List Node × (Nat → ℚ) :=
  match findNodeIdx st.1 key with
  | none => st
  | some j =>
    let c := st.1.getD j default
    let cu := if c.player = pl then c.u else -c.u
    (addU st.1 i (sa * cu), Function.update st.2 a (st.2 a + cu))

/-- The backward-pass inner loop over every action index `0 .. num_actions - 1`
(not only legal ones); an occupied or out-of-range cell makes `__add_stone`
fail and the action is skipped (`continue`).  The second `__add_stone` of the
source (for the `h > 0` successor) is on the same board and cell, so it
succeeds exactly when the first one did. -/
def bwdInner (numA : Nat) (i : Nat) (nd : Node) (st : List Node × (Nat → ℚ)) :
    List Node × (Nat → ℚ) :=
  (List.range numA).foldl (fun acc a =>
    if nd.board[a]? = some Cell.neutral then
      (childKeys nd a).foldl (fun acc2 key => bwdChild i nd.player (nd.strategy.getD a 0) acc2 a key) acc
    else acc) st

/-- `cfp`, the opponent's counterfactual reach accumulator (line 143):
`node.pSum2 if node.player == pieces.C_PLAYER1 else node.pSum1`. -/
def cfpOf (nd : Node) : ℚ := if nd.player = Player.P1 then nd.pSum2 else nd.pSum1

/-- The weighted-running-mean regret update of lines 145-147:
`(T*regretSum[a] + visits*cfp*(regret[a]-u)) / (T+visits)`. -/
def regretStep (T rs visits cfp r u : ℚ) : ℚ :=
  (T * rs + visits * cfp * (r - u)) / (T + visits)

/-- The `for a in node.pos_actions` loop of lines 144-147, rewriting
`regretSum[a]` in place. -/
def applyRegretUpdates (nd : Node) (r : Nat → ℚ) : List ℚ :=
  nd.posActions.foldl
    (fun rs a => rs.set a (regretStep nd.T (rs.getD a 0) nd.visits (cfpOf nd) (r a) nd.u)) nd.regretSum

/-- Lines 143-148: the regret updates followed by `node.T += node.visits`. -/
def bwFinalize (nd : Node) (r : Nat → ℚ) : Node :=
  { nd with regretSum := applyRegretUpdates nd r, T := nd.T + nd.visits }

/-- Lines 150-152: `node.visits = 0`, `node.pSum1 = 0`, `node.pSum2 = 0`. -/
def resetTransients (nd : Node) : Node := { nd with visits := 0, pSum1 := 0, pSum2 := 0 }

/-- Backward-pass processing of the node at index `i` (lines 112-152):
`getStrategy`, then branch on `Hex(BOARD=node.board).game_status()` — a
declared winner sets `u` to `±1`, an undecided board runs the child-utility
loop and the weighted regret update — and finally zero the transients. -/
def processBackward (gs : Board → Option Player) (numA : Nat)
    (st : List Node × (Nat → ℚ)) (i : Nat) : List Node × (Nat → ℚ) :=
  match st.1[i]? with
  | none => st
  | some nd0 =>
    let nd := getStrategyNode nd0
    let ns0 := st.1.set i nd
    let st1 : List Node × (Nat → ℚ) :=
      match gs nd.board with
      | some p => (setUVal ns0 i (if p = nd.player then 1 else -1), st.2)
      | none =>
        let inner := bwdInner numA i nd (ns0, st.2)
        let ndU := inner.1.getD i default
        (inner.1.set i (bwFinalize ndU inner.2), inner.2)
    (st1.1.set i (resetTransients (st1.1.getD i default)), st1.2)

/-- The backward pass folded over an explicit index list. -/
def backSteps (gs : Board → Option Player) (numA : Nat) (L : List Nat)
    (st : List Node × (Nat → ℚ)) : List Node × (Nat → ℚ) :=
  L.foldl (processBackward gs numA) st

/-- The full backward pass, `for node in self.nodes[::-1]`. -/
def backwardPass (gs : Board → Option Player) (numA : Nat)
    (st : List Node × (Nat → ℚ)) : List Node × (Nat → ℚ) :=
  backSteps gs numA (List.range st.1.length).reverse st

/-- One training iteration: the forward pass followed by the backward pass;
the shared scratch `regret` is threaded through untouched by the forward
pass. -/
def trainIter (gs : Board → Option Player) (numA : Nat)
    (st : List Node × (Nat → ℚ)) : List Node × (Nat → ℚ) :=
  backwardPass gs numA (forwardPass st.1, st.2)

/-- `FSICFR.train`: allocate `regret = [0.0] * num_actions` once, then run
the requested number of iterations. -/
def train (gs : Board → Option Player) (numA : Nat) : Nat → List Node → List Node × (Nat → ℚ)
  | 0, ns => (ns, fun _ => 0)
  | k + 1, ns => trainIter gs numA (train gs numA k ns)

/-- The result value of `game.step`: `'f'` (a failed move revealing a hidden
stone), `'='` (game goes on), or a declared winner. -/
inductive Res where
  | f : Res
  | cont : Res
  | win : Player → Res
deriving DecidableEq, Repr

/-- The external rule engine, as used by the graph builder: the `DarkHex`
game operations (`turn_info`, `BOARDS`, `move_history`,
`totalHidden_for_player`, `valid_moves_colors`, `step`), plus the two
observations `__is_board_legal` makes on the legality-check `Hex` game it
builds (`game_status() == 'i'` and `turn_info()`).  `step` returns the next
full game state; rewinding is modelled by keeping the previous immutable
state. -/
structure Engine (γ : Type) where
  turnInfo : γ → Player
  boards : γ → Player → Board
  moveHistory : γ → Player → List Nat
  totalHidden : γ → Player → Nat
  validMoves : γ → Player → List Nat
  step : γ → Player → Nat → γ × Res
  hexIllegal : Board → Player → Nat → Bool
  hexTurn : Board → Player → Nat → Player

/-- `FSICFR.__is_board_legal(board, rev_player, player_turn, h)`: the
legality-check `Hex(BOARD=board, h_player=rev_player, h=h)` must not report
status `'i'`, its turn owner must be `player_turn`, and the number of empty
cells must strictly exceed `h`. -/
def isBoardLegal (E : Engine γ) (board : Board) (revPlayer playerTurn : Player) (h : Nat) : Bool :=
  !E.hexIllegal board revPlayer h &&
    decide (E.hexTurn board revPlayer h = playerTurn) &&
    decide (h < board.count Cell.neutral)

/-- The full-state deduplication key
`tuple([*game.BOARDS[C_PLAYER1], *game.BOARDS[C_PLAYER2]])`. -/
def extKey (E : Engine γ) (g : γ) : Board × Board :=
  (E.boards g Player.P1, E.boards g Player.P2)

/-- The node built in the `res == 'f'` branch of `__topSort_play`. -/
def fNode (E : Engine γ) (g : γ) : Node :=
  mkNode (E.boards g (E.turnInfo g)) (E.moveHistory g (E.turnInfo g)) (E.turnInfo g)
    (E.totalHidden g (E.turnInfo g))

/-- The acting player of the non-`'f'` branch: the declared winner when the
move ended the game (`player = res`), else the turn owner. -/
def contPlayer (E : Engine γ) (g : γ) : Res → Player
  | Res.win p => p
  | _ => E.turnInfo g

/-- The node built in the non-`'f'` branch of `__topSort_play`, with
`is_terminal = (res != '=')`. -/
def cNode (E : Engine γ) (g : γ) (res : Res) : Node :=
  let player := contPlayer E g res
  { mkNode (E.boards g player) (E.moveHistory g player) player (E.totalHidden g player) with
    isTerminal := decide (res ≠ Res.cont) }

/-- The builder state: the post-order `stack` and the `visited` full-state
keys.  The `nodes_dict` keys are exactly the info sets of the stack nodes
(the two are appended together, under the same guard). -/
abbrev SV := List Node × List (Board × Board)

/-- `if node.infoSet not in nodes_dict: nodes_dict[...] = node; stack.append(node)`. -/
def pushNode (stack : List Node) (nd : Node) : List Node :=
  match findNodeIdx stack nd.infoSet with
  | some _ => stack
  | none => stack ++ [nd]

/-- The legality check `__topSort_play` applies to the acting player `p` of a
full state `g`:
`__is_board_legal(game.BOARDS[p], reverse_player(p), p, game.totalHidden_for_player(p))`.
The one-step lookahead of the non-`'f'` branch is exactly `ownLegal` of the
reversed player. -/
def ownLegal (E : Engine γ) (g : γ) (p : Player) : Bool :=
  isBoardLegal E (E.boards g p) (reversePlayer p) p (E.totalHidden g p)

/-- The node-construction and pruning prelude of `__topSort_play`: `none`
when the branch is pruned (legality — with the one-step lookahead in the
non-`'f'` branch — or an already-visited full state), otherwise the node the
branch goes on with. -/
def checkNode (E : Engine γ) (g : γ) (res : Res) (visited : List (Board × Board)) : Option Node :=
  match res with
  | Res.f =>
    let node := fNode E g
    if ownLegal E g (E.turnInfo g) = false then none
    else if extKey E g ∈ visited then none
    else some node
  | _ =>
    let player' := contPlayer E g res
    let node := cNode E g res
    if ownLegal E g player' = false ∧ ownLegal E g (reversePlayer player') = false then none
    else if extKey E g ∈ visited then none
    else some node

/-- The `for a in valid_moves` loop of `__topSort_play`, with `rec` standing
for the recursive call; rewinding is the reuse of the immutable `g`. -/
def exploreMoves (E : Engine γ) (rec : γ → Res → SV → SV) (g : γ) (sv : SV) : SV :=
  (E.validMoves g (E.turnInfo g)).foldl
    (fun acc a => rec (E.step g (E.turnInfo g) a).1 (E.step g (E.turnInfo g) a).2 acc) sv

/-- One unfolding of `__topSort_play`: build the branch node, prune on
legality and on the `visited` set, then either push a terminal node, or
explore every move in `valid_moves_colors[player]` and push the node
afterwards (post-order). -/
def topSortStep (E : Engine γ) (rec : γ → Res → SV → SV) (g : γ) (res : Res) (sv : SV) : SV :=
  match checkNode E g res sv.2 with
  | none => sv
  | some node =>
    let sv1 : SV := (sv.1, extKey E g :: sv.2)
    if node.isTerminal then (pushNode sv1.1 node, sv1.2)
    else
      let sv2 := exploreMoves E rec g sv1
      (pushNode sv2.1 node, sv2.2)

/-- `__topSort_play`, indexed by a recursion-depth fuel.  The source recursion
terminates because every step adds a stone; with fuel at least the recursion
depth the two agree. -/
def topSortPlay (E : Engine γ) : Nat → γ → Res → SV → SV
  | 0, _, _, sv => sv
  | fuel + 1, g, res, sv => topSortStep E (topSortPlay E fuel) g res sv

/-- `__init_board_topSorted`: run the depth-first enumeration from the
initial state with `res = '='` and return `stack[-1::-1]`, the reversed
post-order stack. -/
def buildNodes (E : Engine γ) (fuel : Nat) (g0 : γ) : List Node :=
  (topSortPlay E fuel g0 Res.cont ([], [])).1.reverse

/-! ### Small rewriting helpers for discrete data -/

@[simp] theorem occ_ne_neutral (p : Player) : (Cell.occ p = Cell.neutral) = False :=
  eq_false (fun hc => Cell.noConfusion hc)

@[simp] theorem neutral_ne_occ (p : Player) : (Cell.neutral = Cell.occ p) = False :=
  eq_false (fun hc => Cell.noConfusion hc)

@[simp] theorem p1_ne_p2 : (Player.P1 = Player.P2) = False :=
  eq_false (fun hc => Player.noConfusion hc)

@[simp] theorem p2_ne_p1 : (Player.P2 = Player.P1) = False :=
  eq_false (fun hc => Player.noConfusion hc)

/-! ### List access helpers -/

theorem getD_set_eq {α : Type} (l : List α) (i : Nat) (v d : α) (hi : i < l.length) :
    (l.set i v).getD i d = v := by
  induction l generalizing i with
  | nil => simp at hi
  | cons x xs ih =>
    cases i with
    | zero => rfl
    | succ n => simpa using ih n (by simpa using hi)

theorem getD_set_ne {α : Type} (l : List α) (i j : Nat) (v d : α) (hij : i ≠ j) :
    (l.set j v).getD i d = l.getD i d := by
  induction l generalizing i j with
  | nil => rfl
  | cons x xs ih =>
    cases j with
    | zero =>
      cases i with
      | zero => exact absurd rfl hij
      | succ n => rfl
    | succ m =>
      cases i with
      | zero => rfl
      | succ n => simpa using ih n m (fun hh => hij (by rw [hh]))

theorem sum_map_div {α : Type} (L : List α) (g : α → ℚ) (c : ℚ) :
    (L.map (fun a => g a / c)).sum = (L.map g).sum / c := by
  induction L with
  | nil => simp
  | cons x xs ih => simp [ih, add_div]

theorem map_const_eq_replicate {α : Type} (L : List α) (c : ℚ) :
    L.map (fun _ => c) = List.replicate L.length c := by
  induction L with
  | nil => rfl
  | cons x xs ih => simp [ih, List.replicate_succ]

theorem sum_range_getD (l : List ℚ) :
    ((List.range l.length).map (fun a => l.getD a 0)).sum = l.sum := by
  induction l with
  | nil => rfl
  | cons x xs ih =>
    rw [List.length_cons, List.range_succ_eq_map, List.map_cons, List.map_map, List.sum_cons]
    have hcg : ∀ a ∈ List.range xs.length,
        ((fun a => (x :: xs).getD a 0) ∘ Nat.succ) a = (fun a => xs.getD a 0) a :=
      fun a _ => rfl
    rw [List.map_congr_left hcg, ih, List.getD_cons_zero, List.sum_cons]

/-! ### Claim C1: the weighted-running-mean regret update -/

theorem foldl_set_getD_not_mem (F : Nat → ℚ → ℚ) :
    ∀ (L : List Nat) (rs : List ℚ) (a : Nat), a ∉ L →
      (L.foldl (fun acc x => acc.set x (F x (acc.getD x 0))) rs).getD a 0 = rs.getD a 0 := by
  intro L
  induction L with
  | nil => intro rs a _; rfl
  | cons b L' ih =>
    intro rs a ha
    have hab : a ≠ b := fun hh => ha (hh ▸ List.mem_cons_self b L')
    have ha' : a ∉ L' := fun hh => ha (List.mem_cons_of_mem b hh)
    rw [List.foldl_cons, ih _ a ha', getD_set_ne rs a b _ _ hab]

theorem foldl_set_getD (F : Nat → ℚ → ℚ) :
    ∀ (L : List Nat) (rs : List ℚ) (a : Nat), L.Nodup → a ∈ L → a < rs.length →
      (L.foldl (fun acc x => acc.set x (F x (acc.getD x 0))) rs).getD a 0 = F a (rs.getD a 0) := by
  intro L
  induction L with
  | nil => intro rs a _ ha; exact absurd ha (List.not_mem_nil a)
  | cons b L' ih =>
    intro rs a hnd ha hlen
    rcases List.mem_cons.mp ha with hab | ha'
    · subst hab
      have hnot : a ∉ L' := (List.nodup_cons.mp hnd).1
      rw [List.foldl_cons, foldl_set_getD_not_mem F L' _ a hnot, getD_set_eq _ _ _ _ hlen]
    · have hab : a ≠ b := by
        intro hh
        exact (List.nodup_cons.mp hnd).1 (hh ▸ ha')
      rw [List.foldl_cons]
      rw [ih _ a (List.nodup_cons.mp hnd).2 ha' (by simpa using hlen)]
      rw [getD_set_ne _ _ _ _ _ hab]

/-- Claim C1: in the backward pass, for each legal action `a` of the node the
persistent regret is rewritten to the weighted running mean
`(T*regretSum[a] + visits*cfp*(regret[a]-u)) / (T+visits)` where `cfp` is the
opponent's reach accumulator (`pSum2` for a player-1 node, else `pSum1`), and
afterwards `T` is increased by `visits`; numerically, one update from `T=0`
with `visits=2`, `cfp=1`, `regret-u=3` yields `regretSum[a]=3`, and a second
update from `T=2`, `regretSum[a]=3`, `visits=2`, `cfp=1`, `regret-u=1`
yields `regretSum[a]=2`. -/
theorem C1_regret_update :
    (∀ (nd : Node) (r : Nat → ℚ) (a : Nat), nd.posActions.Nodup → a ∈ nd.posActions →
        a < nd.regretSum.length →
        (applyRegretUpdates nd r).getD a 0
          = regretStep nd.T (nd.regretSum.getD a 0) nd.visits (cfpOf nd) (r a) nd.u) ∧
    (∀ (nd : Node) (r : Nat → ℚ),
        (bwFinalize nd r).T = nd.T + nd.visits ∧
        (bwFinalize nd r).regretSum = applyRegretUpdates nd r) ∧
    (∀ nd : Node, cfpOf nd = if nd.player = Player.P1 then nd.pSum2 else nd.pSum1) ∧
    (∀ rs r u : ℚ, r - u = 3 → regretStep 0 rs 2 1 r u = 3) ∧
    (∀ r u : ℚ, r - u = 1 → regretStep 2 3 2 1 r u = 2) := by
  refine ⟨?_, ?_, ?_, ?_, ?_⟩
  · intro nd r a hnd ha hlen
    exact foldl_set_getD (fun x v => regretStep nd.T v nd.visits (cfpOf nd) (r x) nd.u)
      nd.posActions nd.regretSum a hnd ha hlen
  · intro nd r; exact ⟨rfl, rfl⟩
  · intro nd; rfl
  · intro rs r u hru
    rw [regretStep, hru]
    norm_num
  · intro r u hru
    rw [regretStep, hru]
    norm_num

/-- A concrete node exercising `C1_regret_update`: one legal action `0`,
`regretSum = [5]`, `visits = 2`, `T = 0`, `u = 0`, `pSum2 = 1`. -/
def ndC1 : Node :=
  { mkNode [Cell.neutral] [] Player.P1 0 with regretSum := [5], visits := 2 }

theorem C1_regret_update_witness :
    ndC1.posActions.Nodup ∧ (0 : Nat) ∈ ndC1.posActions ∧ 0 < ndC1.regretSum.length ∧
    ((3 : ℚ) - 0 = 3) ∧
    (applyRegretUpdates ndC1 (fun _ => 3)).getD 0 0 = 3 := by
  refine ⟨by decide, by decide, by simp [ndC1], by norm_num, ?_⟩
  have h1 := C1_regret_update.1 ndC1 (fun _ => 3) 0
    (by decide) (by decide) (by simp [ndC1])
  have h2 := C1_regret_update.2.2.2.1 (ndC1.regretSum.getD 0 0) 3 0 (by norm_num)
  rw [h1]
  have hT : ndC1.T = 0 := rfl
  have hv : ndC1.visits = 2 := rfl
  have hu : ndC1.u = 0 := rfl
  have hc : cfpOf ndC1 = 1 := rfl
  rw [hT, hv, hu, hc]
  exact h2

/-! ### Claim C5: `getStrategy` returns a probability vector -/

/-- Claim C5: after `getStrategy()` the stored strategy has length
`num_actions`, every entry is nonnegative, the entries sum to `1`, and when
every `regretSum[a] ≤ 0` the strategy is the uniform `1/num_actions` at every
action index (occupied cells included: the fallback ranges over all indices,
not only `pos_actions`). -/
theorem C5_strategy_prob (nd : Node) (h0 : 0 < nd.strategy.length)
    (hlen : nd.strategy.length = nd.numActions) :
    ((getStrategyNode nd).strategy.length = nd.numActions) ∧
    (∀ x ∈ (getStrategyNode nd).strategy, 0 ≤ x) ∧
    ((getStrategyNode nd).strategy.sum = 1) ∧
    ((∀ a : Nat, nd.regretSum.getD a 0 ≤ 0) →
      (getStrategyNode nd).strategy
        = List.replicate nd.numActions (1 / (nd.numActions : ℚ))) := by
  have hstr : (getStrategyNode nd).strategy = computeStrategy nd := rfl
  refine ⟨?_, ?_, ?_, ?_⟩
  · rw [hstr, computeStrategy]
    simpa using hlen
  · intro x hx
    rw [hstr, computeStrategy] at hx
    simp only [List.mem_map] at hx
    obtain ⟨a, _, rfl⟩ := hx
    by_cases hS : 0 < normalizingSum nd
    · simp only [if_pos hS]
      exact div_nonneg (le_max_right _ _) (le_of_lt hS)
    · simp only [if_neg hS]
      positivity
  · rw [hstr, computeStrategy]
    by_cases hS : 0 < normalizingSum nd
    · simp only [if_pos hS]
      rw [sum_map_div]
      have : ((List.range nd.strategy.length).map
          (fun a => max (nd.regretSum.getD a 0) 0)).sum = normalizingSum nd := rfl
      rw [this, div_self (ne_of_gt hS)]
    · simp only [if_neg hS]
      have hne : (nd.strategy.length : ℚ) ≠ 0 :=
        Nat.cast_ne_zero.mpr (Nat.pos_iff_ne_zero.mp h0)
      rw [map_const_eq_replicate, List.length_range, List.sum_replicate, nsmul_eq_mul]
      rw [mul_one_div, div_self hne]
  · intro hneg
    have hS : normalizingSum nd = 0 := by
      rw [normalizingSum]
      have hcg : ∀ a ∈ List.range nd.strategy.length,
          max (nd.regretSum.getD a 0) 0 = (fun _ => (0 : ℚ)) a := by
        intro a _
        exact max_eq_right (hneg a)
      rw [List.map_congr_left hcg, map_const_eq_replicate, List.sum_replicate, smul_zero]
    rw [hstr, computeStrategy]
    simp only [hS, lt_irrefl, if_false]
    rw [map_const_eq_replicate, List.length_range, hlen]

/-- A concrete node exercising `C5_strategy_prob`: two actions, all regrets
nonpositive. -/
def ndC5 : Node :=
  { mkNode [Cell.neutral, Cell.neutral] [] Player.P1 0 with regretSum := [-1, 0] }

theorem C5_strategy_prob_witness :
    (0 < ndC5.strategy.length ∧ ndC5.strategy.length = ndC5.numActions ∧
      (∀ a : Nat, ndC5.regretSum.getD a 0 ≤ 0)) ∧
    ((getStrategyNode ndC5).strategy.sum = 1 ∧
      (getStrategyNode ndC5).strategy
        = List.replicate ndC5.numActions (1 / (ndC5.numActions : ℚ))) := by
  have hreg : ∀ a : Nat, ndC5.regretSum.getD a 0 ≤ 0 := by
    intro a
    match a with
    | 0 => norm_num [ndC5, mkNode]
    | 1 => norm_num [ndC5, mkNode]
    | (n + 2) => simp [ndC5, mkNode, List.getD]
  have hc := C5_strategy_prob ndC5 (by simp [ndC5, mkNode]) (by simp [ndC5, mkNode])
  exact ⟨⟨by simp [ndC5, mkNode], by simp [ndC5, mkNode], hreg⟩, hc.2.2.1, hc.2.2.2 hreg⟩

/-! ### Claim C8: `getAverageStrategy` normalises in place -/

/-- Claim C8: `getAverageStrategy()` overwrites `strategySum` with the
normalised vector (uniform fallback when the old total is not positive),
returns exactly the stored vector, and the result sums to `1`. -/
theorem C8_average_strategy (nd : Node) (h0 : 0 < nd.strategySum.length) :
    ((getAverageStrategyNode nd).1.strategySum = (getAverageStrategyNode nd).2) ∧
    ((getAverageStrategyNode nd).2
      = (List.range nd.strategySum.length).map (fun a =>
          if 0 < nd.strategySum.sum then nd.strategySum.getD a 0 / nd.strategySum.sum
          else 1 / (nd.strategySum.length : ℚ))) ∧
    ((getAverageStrategyNode nd).2.sum = 1) := by
  refine ⟨rfl, rfl, ?_⟩
  have hret : (getAverageStrategyNode nd).2 = averageStrategyList nd := rfl
  rw [hret, averageStrategyList]
  by_cases hS : 0 < nd.strategySum.sum
  · simp only [if_pos hS]
    rw [sum_map_div, sum_range_getD, div_self (ne_of_gt hS)]
  · simp only [if_neg hS]
    have hne : (nd.strategySum.length : ℚ) ≠ 0 :=
      Nat.cast_ne_zero.mpr (Nat.pos_iff_ne_zero.mp h0)
    rw [map_const_eq_replicate, List.length_range, List.sum_replicate, nsmul_eq_mul]
    rw [mul_one_div, div_self hne]

/-- A concrete node exercising `C8_average_strategy`. -/
def ndC8 : Node :=
  { mkNode [Cell.neutral, Cell.neutral] [] Player.P1 0 with strategySum := [3, 1] }

theorem C8_average_strategy_witness :
    0 < ndC8.strategySum.length ∧
    (getAverageStrategyNode ndC8).1.strategySum = (getAverageStrategyNode ndC8).2 ∧
    (getAverageStrategyNode ndC8).2.sum = 1 := by
  have hc := C8_average_strategy ndC8 (by simp [ndC8])
  exact ⟨by simp [ndC8], hc.1, hc.2.2⟩

/-! ### Fold, length and frame lemmas for the two passes -/

theorem foldl_preserve {α β : Type _} (P : α → Prop) (f : α → β → α) :
    ∀ (L : List β) (acc : α), (∀ acc' b, b ∈ L → P acc' → P (f acc' b)) → P acc →
      P (L.foldl f acc) := by
  intro L
  induction L with
  | nil => intro acc _ h; exact h
  | cons b L' ih =>
    intro acc hf h
    rw [List.foldl_cons]
    exact ih (f acc b) (fun acc' x hx => hf acc' x (List.mem_cons_of_mem b hx))
      (hf acc b (List.mem_cons_self b L') h)

theorem length_fwdUpdateChild (ns : List Node) (p : Node) (sa : ℚ) (key : IKey) :
    (fwdUpdateChild ns p sa key).length = ns.length := by
  cases hkey : findNodeIdx ns key <;> simp [fwdUpdateChild, hkey]

theorem length_processForward (ns : List Node) (i : Nat) :
    (processForward ns i).length = ns.length := by
  cases hns : ns[i]? with
  | none => simp [processForward, hns]
  | some nd0 =>
    simp only [processForward, hns]
    refine foldl_preserve (fun acc : List Node => acc.length = ns.length) _ _ _ ?_ (by simp)
    intro acc a _ hacc
    refine foldl_preserve (fun acc2 : List Node => acc2.length = ns.length) _ _ _ ?_ hacc
    intro acc2 key _ hacc2
    rw [length_fwdUpdateChild, hacc2]

theorem length_fwdSteps (L : List Nat) (ns : List Node) :
    (fwdSteps L ns).length = ns.length := by
  refine foldl_preserve (fun acc : List Node => acc.length = ns.length) _ _ _ ?_ rfl
  intro acc b _ hacc
  rw [length_processForward, hacc]

theorem length_forwardPass (ns : List Node) : (forwardPass ns).length = ns.length :=
  length_fwdSteps _ ns

theorem length_addU (ns : List Node) (i : Nat) (d : ℚ) : (addU ns i d).length = ns.length := by
  cases hns : ns[i]? <;> simp [addU, hns]

theorem length_setUVal (ns : List Node) (i : Nat) (v : ℚ) :
    (setUVal ns i v).length = ns.length := by
  cases hns : ns[i]? <;> simp [setUVal, hns]

theorem length_bwdChild (i : Nat) (pl : Player) (sa : ℚ) (st : List Node × (Nat → ℚ))
    (a : Nat) (key : IKey) : (bwdChild i pl sa st a key).1.length = st.1.length := by
  cases hkey : findNodeIdx st.1 key <;> simp [bwdChild, hkey, length_addU]

theorem length_bwdInner (numA i : Nat) (nd : Node) (st : List Node × (Nat → ℚ)) :
    (bwdInner numA i nd st).1.length = st.1.length := by
  refine foldl_preserve (fun acc : List Node × (Nat → ℚ) => acc.1.length = st.1.length) _ _ _ ?_ rfl
  intro acc a _ hacc
  by_cases hcell : nd.board[a]? = some Cell.neutral
  · simp only [if_pos hcell]
    refine foldl_preserve (fun acc2 : List Node × (Nat → ℚ) => acc2.1.length = st.1.length) _ _ _ ?_ hacc
    intro acc2 key _ hacc2
    rw [length_bwdChild, hacc2]
  · simpa [if_neg hcell] using hacc

theorem length_processBackward (gs : Board → Option Player) (numA : Nat)
    (st : List Node × (Nat → ℚ)) (i : Nat) :
    (processBackward gs numA st i).1.length = st.1.length := by
  cases hns : st.1[i]? with
  | none => simp [processBackward, hns]
  | some nd0 =>
    cases hgs : gs (getStrategyNode nd0).board with
    | some p =>
      simp only [processBackward, hns, hgs]
      rw [List.length_set, length_setUVal, List.length_set]
    | none =>
      simp only [processBackward, hns, hgs]
      rw [List.length_set, List.length_set, length_bwdInner, List.length_set]

theorem length_backSteps (gs : Board → Option Player) (numA : Nat) (L : List Nat)
    (st : List Node × (Nat → ℚ)) : (backSteps gs numA L st).1.length = st.1.length := by
  refine foldl_preserve (fun acc : List Node × (Nat → ℚ) => acc.1.length = st.1.length) _ _ _ ?_ rfl
  intro acc b _ hacc
  rw [length_processBackward, hacc]

theorem length_trainIter (gs : Board → Option Player) (numA : Nat)
    (st : List Node × (Nat → ℚ)) : (trainIter gs numA st).1.length = st.1.length := by
  rw [trainIter, backwardPass]
  rw [length_backSteps]
  exact length_forwardPass st.1

theorem length_train (gs : Board → Option Player) (numA k : Nat) (ns : List Node) :
    (train gs numA k ns).1.length = ns.length := by
  induction k with
  | zero => rfl
  | succ n ih => rw [train, length_trainIter, ih]

theorem bwdChild_frame (i : Nat) (pl : Player) (sa : ℚ) (st : List Node × (Nat → ℚ))
    (a : Nat) (key : IKey) (k : Nat) (hk : k ≠ i) :
    (bwdChild i pl sa st a key).1[k]? = st.1[k]? := by
  cases hkey : findNodeIdx st.1 key with
  | none => simp [bwdChild, hkey]
  | some j =>
    simp only [bwdChild, hkey]
    cases hns : st.1[i]? with
    | none => simp [addU, hns]
    | some m =>
      simp only [addU, hns]
      exact List.getElem?_set_ne (fun hh => hk hh.symm)

theorem bwdInner_frame (numA i : Nat) (nd : Node) (st : List Node × (Nat → ℚ))
    (k : Nat) (hk : k ≠ i) : (bwdInner numA i nd st).1[k]? = st.1[k]? := by
  refine foldl_preserve (fun acc : List Node × (Nat → ℚ) => acc.1[k]? = st.1[k]?) _ _ _ ?_ rfl
  intro acc a _ hacc
  by_cases hcell : nd.board[a]? = some Cell.neutral
  · simp only [if_pos hcell]
    refine foldl_preserve (fun acc2 : List Node × (Nat → ℚ) => acc2.1[k]? = st.1[k]?) _ _ _ ?_ hacc
    intro acc2 key _ hacc2
    rw [bwdChild_frame i nd.player _ acc2 a key k hk, hacc2]
  · simpa [if_neg hcell] using hacc

theorem setUVal_frame (ns : List Node) (i : Nat) (v : ℚ) (k : Nat) (hk : k ≠ i) :
    (setUVal ns i v)[k]? = ns[k]? := by
  cases hns : ns[i]? with
  | none => simp [setUVal, hns]
  | some m =>
    simp only [setUVal, hns]
    exact List.getElem?_set_ne (fun hh => hk hh.symm)

theorem processBackward_frame (gs : Board → Option Player) (numA : Nat)
    (st : List Node × (Nat → ℚ)) (i k : Nat) (hk : k ≠ i) :
    (processBackward gs numA st i).1[k]? = st.1[k]? := by
  cases hns : st.1[i]? with
  | none => simp [processBackward, hns]
  | some nd0 =>
    cases hgs : gs (getStrategyNode nd0).board with
    | some p =>
      simp only [processBackward, hns, hgs]
      rw [List.getElem?_set_ne (fun hh => hk hh.symm)]
      rw [setUVal_frame _ _ _ _ hk]
      exact List.getElem?_set_ne (fun hh => hk hh.symm)
    | none =>
      simp only [processBackward, hns, hgs]
      rw [List.getElem?_set_ne (fun hh => hk hh.symm)]
      rw [List.getElem?_set_ne (fun hh => hk hh.symm)]
      rw [bwdInner_frame _ _ _ _ _ hk]
      exact List.getElem?_set_ne (fun hh => hk hh.symm)

theorem backSteps_frame (gs : Board → Option Player) (numA : Nat) (L : List Nat)
    (st : List Node × (Nat → ℚ)) (k : Nat) (hk : k ∉ L) :
    (backSteps gs numA L st).1[k]? = st.1[k]? := by
  refine foldl_preserve (fun acc : List Node × (Nat → ℚ) => acc.1[k]? = st.1[k]?) _ _ _ ?_ rfl
  intro acc b hb hacc
  rw [processBackward_frame gs numA acc b k (fun hh => hk (hh ▸ hb)), hacc]

/-! ### Claim C2: what gets zeroed at the end of the backward pass -/

theorem reset_getD_zeroed (X : List Node) (i : Nat) (hX : i < X.length) :
    ((X.set i (resetTransients (X.getD i default))).getD i default).visits = 0 ∧
    ((X.set i (resetTransients (X.getD i default))).getD i default).pSum1 = 0 ∧
    ((X.set i (resetTransients (X.getD i default))).getD i default).pSum2 = 0 := by
  rw [getD_set_eq _ _ _ _ hX]
  exact ⟨rfl, rfl, rfl⟩

theorem processBackward_self_zeroed (gs : Board → Option Player) (numA : Nat)
    (st : List Node × (Nat → ℚ)) (i : Nat) (hi : i < st.1.length) :
    ((processBackward gs numA st i).1.getD i default).visits = 0 ∧
    ((processBackward gs numA st i).1.getD i default).pSum1 = 0 ∧
    ((processBackward gs numA st i).1.getD i default).pSum2 = 0 := by
  have hnd0 : st.1[i]? = some st.1[i] := List.getElem?_eq_getElem hi
  cases hgs : gs (getStrategyNode st.1[i]).board with
  | some p =>
    simp only [processBackward, hnd0, hgs]
    refine reset_getD_zeroed _ i ?_
    rw [length_setUVal, List.length_set]
    exact hi
  | none =>
    simp only [processBackward, hnd0, hgs]
    refine reset_getD_zeroed _ i ?_
    rw [List.length_set, length_bwdInner, List.length_set]
    exact hi

theorem backSteps_zeroed (gs : Board → Option Player) (numA : Nat) (L : List Nat)
    (st : List Node × (Nat → ℚ)) (i : Nat) (hi : i < st.1.length)
    (hmem : i ∈ L) (hnd : L.Nodup) :
    ((backSteps gs numA L st).1.getD i default).visits = 0 ∧
    ((backSteps gs numA L st).1.getD i default).pSum1 = 0 ∧
    ((backSteps gs numA L st).1.getD i default).pSum2 = 0 := by
  obtain ⟨L1, L2, rfl⟩ := List.append_of_mem hmem
  have hiL2 : i ∉ L2 := by
    have hcons : (i :: L2).Nodup := hnd.of_append_right
    exact (List.nodup_cons.mp hcons).1
  have hsplit : backSteps gs numA (L1 ++ i :: L2) st
      = backSteps gs numA L2 (processBackward gs numA (backSteps gs numA L1 st) i) := by
    rw [backSteps, backSteps, backSteps, List.foldl_append, List.foldl_cons]
  rw [hsplit]
  have hi1 : i < (backSteps gs numA L1 st).1.length := by
    rw [length_backSteps]
    exact hi
  have hz := processBackward_self_zeroed gs numA (backSteps gs numA L1 st) i hi1
  have hfr := backSteps_frame gs numA L2
    (processBackward gs numA (backSteps gs numA L1 st) i) i hiL2
  rw [List.getD_eq_getElem?_getD, hfr, ← List.getD_eq_getElem?_getD]
  exact hz

/-- Claim C2 (amended): at the end of every training iteration's backward
pass every node's `visits`, `pSum1` and `pSum2` equal zero; `u` is *not*
reset (`C2_u_not_zeroed_cex` shows a terminal node ending an iteration with
`u = 1`), and `regretSum`/`strategySum` are carried over rather than
cleared. -/
theorem C2_transients_zeroed (gs : Board → Option Player) (numA : Nat)
    (st : List Node × (Nat → ℚ)) (i : Nat) (hi : i < st.1.length) :
    ((trainIter gs numA st).1.getD i default).visits = 0 ∧
    ((trainIter gs numA st).1.getD i default).pSum1 = 0 ∧
    ((trainIter gs numA st).1.getD i default).pSum2 = 0 := by
  rw [trainIter, backwardPass]
  refine backSteps_zeroed gs numA _ _ i ?_ ?_ ?_
  · rw [length_forwardPass]
    exact hi
  · rw [List.mem_reverse, List.mem_range, length_forwardPass]
    exact hi
  · exact (List.nodup_reverse).mpr (List.nodup_range _)

/-- The concrete states of the two-state engine behind `C2_u_not_zeroed_cex`:
an empty 1x2 root and the terminal state after player 1's winning move. -/
inductive GS2 where
  | h0 : GS2
  | h1 : GS2
deriving DecidableEq, Repr

/-- A rule-engine instance (modelled from the spec's engine interface) with a
single legal move from the root that immediately wins for player 1. -/
def E2 : Engine GS2 where
  turnInfo _ := Player.P1
  boards g p :=
    match g, p with
    | GS2.h0, _ => [Cell.neutral, Cell.neutral]
    | GS2.h1, Player.P1 => [Cell.occ Player.P1, Cell.neutral]
    | GS2.h1, Player.P2 => [Cell.neutral, Cell.neutral]
  moveHistory _ _ := []
  totalHidden _ _ := 0
  validMoves g _ := match g with | GS2.h0 => [0] | GS2.h1 => []
  step g _ _ := match g with | GS2.h0 => (GS2.h1, Res.win Player.P1) | GS2.h1 => (GS2.h0, Res.cont)
  hexIllegal _ _ _ := false
  hexTurn _ _ _ := Player.P1

/-- The status oracle matching `E2`: the board holding player 1's winning
stone is declared won by player 1, everything else is undecided. -/
def gsE2 : Board → Option Player := fun b =>
  if b = [Cell.occ Player.P1, Cell.neutral] then some Player.P1 else none

theorem buildNodes_E2 :
    buildNodes E2 3 GS2.h0
      = [mkNode [Cell.neutral, Cell.neutral] [] Player.P1 0,
         { mkNode [Cell.occ Player.P1, Cell.neutral] [] Player.P1 0 with isTerminal := true }] := by
  decide

/-- Counterexample to claim C2 as stated: on the graph built by `E2`, after
one full training iteration the terminal node (index 1) still carries
`u = 1`; `u` is not among the fields zeroed at the end of the backward
pass. -/
theorem C2_u_not_zeroed_cex :
    ((trainIter gsE2 2 (buildNodes E2 3 GS2.h0, fun _ => 0)).1.getD 1 default).u = 1 ∧
    ¬ ((trainIter gsE2 2 (buildNodes E2 3 GS2.h0, fun _ => 0)).1.getD 1 default).u = 0 := by
  have hu : ((trainIter gsE2 2 (buildNodes E2 3 GS2.h0, fun _ => 0)).1.getD 1 default).u = 1 := by
    rw [buildNodes_E2]
    norm_num only [trainIter, backwardPass, backSteps, forwardPass, fwdSteps, processForward,
      processBackward, getStrategyNode, computeStrategy, normalizingSum, Node.reach, childKeys,
      findNodeIdx, fwdUpdateChild, bwdInner, bwdChild, addU, setUVal, cfpOf, regretStep,
      applyRegretUpdates, bwFinalize, resetTransients, mkNode, Node.infoSet, gsE2,
      List.foldl_cons, List.foldl_nil, List.map_cons, List.map_nil, List.range_succ,
      List.range_zero, List.reverse_cons, List.reverse_nil, List.append_nil, List.nil_append,
      List.cons_append, List.foldl_append, List.length_cons, List.length_nil, List.set,
      List.getD, List.getElem?_cons_zero, List.getElem?_cons_succ, List.getElem?_nil,
      Option.getD_some, Option.getD_none, List.findIdx?_cons, List.findIdx?_nil,
      List.filter_cons, List.filter_nil, List.sum_cons, List.sum_nil,
      List.replicate_succ, List.replicate_zero, List.length_replicate,
      List.get?_cons_zero, List.get?_cons_succ, List.get?_nil, max_self,
      if_true, if_false, decide_True, decide_False, decide_eq_true_eq,
      occ_ne_neutral, neutral_ne_occ, p1_ne_p2, p2_ne_p1, eq_self_iff_true,
      Bool.false_eq_true, Bool.true_eq_false,
      Cell.occ.injEq, Prod.mk.injEq, List.cons.injEq, and_true, true_and, and_false, false_and]
  refine ⟨hu, ?_⟩
  rw [hu]
  norm_num

/-- The single-node state exercising `C2_transients_zeroed`. -/
def ndC2 : Node := mkNode [Cell.neutral] [] Player.P1 0

theorem C2_transients_zeroed_witness :
    0 < ([ndC2] : List Node).length ∧
    (((trainIter (fun _ => none) 1 ([ndC2], fun _ => 0)).1.getD 0 default).visits = 0 ∧
     ((trainIter (fun _ => none) 1 ([ndC2], fun _ => 0)).1.getD 0 default).pSum1 = 0 ∧
     ((trainIter (fun _ => none) 1 ([ndC2], fun _ => 0)).1.getD 0 default).pSum2 = 0) :=
  ⟨by simp, C2_transients_zeroed (fun _ => none) 1 ([ndC2], fun _ => 0) 0 (by simp)⟩

/-! ### Claims C3 and C4: the builder's stack order and the legality of its keys -/

theorem reversePlayer_involutive (p : Player) : reversePlayer (reversePlayer p) = p := by
  cases p <;> rfl

theorem pushNode_extends (st : List Node) (nd : Node) : ∃ δ, pushNode st nd = st ++ δ := by
  cases hf : findNodeIdx st nd.infoSet with
  | some j => exact ⟨[], by simp [pushNode, hf]⟩
  | none => exact ⟨[nd], by simp [pushNode, hf]⟩

theorem exploreMoves_extends (E : Engine γ) (rec : γ → Res → SV → SV)
    (hrec : ∀ g r sv, ∃ δ, (rec g r sv).1 = sv.1 ++ δ) (g : γ) (sv : SV) :
    ∃ δ, (exploreMoves E rec g sv).1 = sv.1 ++ δ := by
  refine foldl_preserve (fun acc : SV => ∃ δ, acc.1 = sv.1 ++ δ) _ _ _ ?_ ⟨[], by simp⟩
  intro acc b _ hacc
  obtain ⟨δ, hδ⟩ := hacc
  obtain ⟨δ', hδ'⟩ := hrec (E.step g (E.turnInfo g) b).1 (E.step g (E.turnInfo g) b).2 acc
  exact ⟨δ ++ δ', by rw [hδ', hδ, List.append_assoc]⟩

theorem topSortPlay_extends (E : Engine γ) :
    ∀ (fuel : Nat) (g : γ) (res : Res) (sv : SV),
      ∃ δ, (topSortPlay E fuel g res sv).1 = sv.1 ++ δ := by
  intro fuel
  induction fuel with
  | zero => intro g res sv; exact ⟨[], by simp [topSortPlay]⟩
  | succ n ih =>
    intro g res sv
    show ∃ δ, (topSortStep E (topSortPlay E n) g res sv).1 = sv.1 ++ δ
    cases hck : checkNode E g res sv.2 with
    | none => exact ⟨[], by simp [topSortStep, hck]⟩
    | some node =>
      by_cases hterm : node.isTerminal = true
      · obtain ⟨δ, hδ⟩ := pushNode_extends sv.1 node
        exact ⟨δ, by simp [topSortStep, hck, hterm, hδ]⟩
      · obtain ⟨δ1, hδ1⟩ := exploreMoves_extends E (topSortPlay E n) ih g (sv.1, extKey E g :: sv.2)
        obtain ⟨δ2, hδ2⟩ :=
          pushNode_extends (exploreMoves E (topSortPlay E n) g (sv.1, extKey E g :: sv.2)).1 node
        refine ⟨δ1 ++ δ2, ?_⟩
        simp only [topSortStep, hck, hterm, Bool.false_eq_true, if_false]
        rw [hδ2, hδ1, List.append_assoc]

/-- Claim C3 (amended): the claim's ordering guarantee holds for the nodes
inserted while exploring the node's own move list, not for arbitrary
map-successors.  When a non-terminal node passes the checks and its info set
is still absent after its subtree exploration, `__topSort_play` appends it
directly *after* everything that exploration pushed — so in the reversed
(parent-before-children) list the node strictly precedes every node first
inserted during its own exploration.  `C3_order_cex` shows the claim as
stated fails: an info-set successor reached through a *different* branch of
the depth-first enumeration can sit at an earlier reversed-list index. -/
theorem C3_subtree_order (E : Engine γ) (fuel : Nat) (g : γ) (res : Res) (sv : SV)
    (node : Node) (hck : checkNode E g res sv.2 = some node)
    (hterm : node.isTerminal = false)
    (hfresh : findNodeIdx (exploreMoves E (topSortPlay E fuel) g (sv.1, extKey E g :: sv.2)).1
      node.infoSet = none) :
    (topSortPlay E (fuel + 1) g res sv).1
      = (exploreMoves E (topSortPlay E fuel) g (sv.1, extKey E g :: sv.2)).1 ++ [node] ∧
    (∃ δ, (exploreMoves E (topSortPlay E fuel) g (sv.1, extKey E g :: sv.2)).1 = sv.1 ++ δ) := by
  constructor
  · show (topSortStep E (topSortPlay E fuel) g res sv).1 = _
    simp only [topSortStep, hck, hterm, Bool.false_eq_true, if_false]
    rw [pushNode, hfresh]
  · exact exploreMoves_extends E (topSortPlay E fuel) (topSortPlay_extends E fuel) g _

/-- The three states of the engine behind `C3_order_cex`: a root with two
moves leading to two sibling states whose info sets are linked by the
train-time successor map. -/
inductive GS3 where
  | gR : GS3
  | gA : GS3
  | gB : GS3
deriving DecidableEq, Repr

/-- A rule-engine instance (modelled from the spec's engine interface): from
the root, move `0` reaches the one-stone state and move `1` the two-stone
state; neither has further moves. -/
def E3 : Engine GS3 where
  turnInfo _ := Player.P1
  boards g p :=
    match g, p with
    | _, Player.P2 => [Cell.neutral, Cell.neutral, Cell.neutral]
    | GS3.gR, Player.P1 => [Cell.neutral, Cell.neutral, Cell.neutral]
    | GS3.gA, Player.P1 => [Cell.occ Player.P1, Cell.neutral, Cell.neutral]
    | GS3.gB, Player.P1 => [Cell.occ Player.P1, Cell.occ Player.P1, Cell.neutral]
  moveHistory _ _ := []
  totalHidden _ _ := 0
  validMoves g _ := match g with | GS3.gR => [0, 1] | _ => []
  step g _ a :=
    match g, a with
    | GS3.gR, 0 => (GS3.gA, Res.cont)
    | GS3.gR, 1 => (GS3.gB, Res.cont)
    | _, _ => (GS3.gR, Res.cont)
  hexIllegal _ _ _ := false
  hexTurn _ _ _ := Player.P1

/-- Counterexample to claim C3 as stated: in the list returned by the
builder on `E3`, the node at index 2 has a map-successor — its own player's
stone placed on its empty cell 1, hidden count unchanged — sitting at index
1, which is *not* strictly later than 2. -/
theorem C3_order_cex :
    (buildNodes E3 5 GS3.gR).length = 3 ∧
    (1 : Nat) ∈ ((buildNodes E3 5 GS3.gR).getD 2 default).posActions ∧
    findNodeIdx (buildNodes E3 5 GS3.gR)
      (((buildNodes E3 5 GS3.gR).getD 2 default).player,
       ((buildNodes E3 5 GS3.gR).getD 2 default).board.set 1
         (Cell.occ ((buildNodes E3 5 GS3.gR).getD 2 default).player),
       ((buildNodes E3 5 GS3.gR).getD 2 default).h) = some 1 ∧
    ¬ (2 : Nat) < 1 := by decide

/-- The empty builder state `stack = []`, `visited = {}`. -/
def svE : SV := ([], [])

theorem C3_subtree_order_witness :
    (checkNode E3 GS3.gR Res.cont svE.2 = some (cNode E3 GS3.gR Res.cont) ∧
      (cNode E3 GS3.gR Res.cont).isTerminal = false ∧
      findNodeIdx (exploreMoves E3 (topSortPlay E3 4) GS3.gR (svE.1, extKey E3 GS3.gR :: svE.2)).1
        (cNode E3 GS3.gR Res.cont).infoSet = none) ∧
    ((topSortPlay E3 (4 + 1) GS3.gR Res.cont svE).1
      = (exploreMoves E3 (topSortPlay E3 4) GS3.gR (svE.1, extKey E3 GS3.gR :: svE.2)).1
        ++ [cNode E3 GS3.gR Res.cont] ∧
     (∃ δ, (exploreMoves E3 (topSortPlay E3 4) GS3.gR (svE.1, extKey E3 GS3.gR :: svE.2)).1
        = svE.1 ++ δ)) :=
  ⟨⟨by decide, by decide, by decide⟩,
    C3_subtree_order E3 4 GS3.gR Res.cont svE (cNode E3 GS3.gR Res.cont)
      (by decide) (by decide) (by decide)⟩

/-- The soundness property claim C4 amends to: every node the builder ever
inserts was created at some full state and passed either its own legality
check (the `'f'` branch checks exactly this) or, in the non-`'f'` branch,
the one-step-lookahead check from the reversed player's perspective. -/
def builderSound (E : Engine γ) (nd : Node) : Prop :=
  ∃ g', (nd = fNode E g' ∧ ownLegal E g' (E.turnInfo g') = true) ∨
    ∃ res', nd = cNode E g' res' ∧
      (ownLegal E g' (contPlayer E g' res') = true ∨
       ownLegal E g' (reversePlayer (contPlayer E g' res')) = true)

theorem bool_ne_false (b : Bool) (hb : ¬ b = false) : b = true := by
  cases b
  · exact absurd rfl hb
  · rfl

theorem checkNode_sound (E : Engine γ) (g : γ) (res : Res) (vis : List (Board × Board))
    (node : Node) (hck : checkNode E g res vis = some node) : builderSound E node := by
  cases res with
  | f =>
    simp only [checkNode] at hck
    by_cases hleg : ownLegal E g (E.turnInfo g) = false
    · rw [if_pos hleg] at hck
      exact absurd hck (by simp)
    · rw [if_neg hleg] at hck
      by_cases hvis : extKey E g ∈ vis
      · rw [if_pos hvis] at hck
        exact absurd hck (by simp)
      · rw [if_neg hvis] at hck
        exact ⟨g, Or.inl ⟨(Option.some.inj hck).symm, bool_ne_false _ hleg⟩⟩
  | cont =>
    simp only [checkNode] at hck
    by_cases hpr : ownLegal E g (contPlayer E g Res.cont) = false ∧
        ownLegal E g (reversePlayer (contPlayer E g Res.cont)) = false
    · rw [if_pos hpr] at hck
      exact absurd hck (by simp)
    · rw [if_neg hpr] at hck
      by_cases hvis : extKey E g ∈ vis
      · rw [if_pos hvis] at hck
        exact absurd hck (by simp)
      · rw [if_neg hvis] at hck
        refine ⟨g, Or.inr ⟨Res.cont, (Option.some.inj hck).symm, ?_⟩⟩
        rcases not_and_or.mp hpr with hh | hh
        · exact Or.inl (bool_ne_false _ hh)
        · exact Or.inr (bool_ne_false _ hh)
  | win p =>
    simp only [checkNode] at hck
    by_cases hpr : ownLegal E g (contPlayer E g (Res.win p)) = false ∧
        ownLegal E g (reversePlayer (contPlayer E g (Res.win p))) = false
    · rw [if_pos hpr] at hck
      exact absurd hck (by simp)
    · rw [if_neg hpr] at hck
      by_cases hvis : extKey E g ∈ vis
      · rw [if_pos hvis] at hck
        exact absurd hck (by simp)
      · rw [if_neg hvis] at hck
        refine ⟨g, Or.inr ⟨Res.win p, (Option.some.inj hck).symm, ?_⟩⟩
        rcases not_and_or.mp hpr with hh | hh
        · exact Or.inl (bool_ne_false _ hh)
        · exact Or.inr (bool_ne_false _ hh)

theorem pushNode_mem (st : List Node) (node nd : Node) (hm : nd ∈ pushNode st node) :
    nd ∈ st ∨ nd = node := by
  cases hf : findNodeIdx st node.infoSet with
  | some j => rw [pushNode, hf] at hm; exact Or.inl hm
  | none =>
    rw [pushNode, hf] at hm
    rcases List.mem_append.mp hm with hh | hh
    · exact Or.inl hh
    · exact Or.inr (List.mem_singleton.mp hh)

/-- Claim C4 (amended): every node in the builder's stack (equivalently,
every key of `nodes_dict`) either passed its own legality check or was kept
by the one-step lookahead: its own check fails but the opposite player's
perspective passes.  `C4_illegal_key_cex` shows the claim as stated fails:
a lookahead-kept node is inserted although its own state fails the
legality check. -/
theorem C4_keys_legal_or_lookahead (E : Engine γ) :
    ∀ (fuel : Nat) (g : γ) (res : Res) (sv : SV) (nd : Node),
      nd ∈ (topSortPlay E fuel g res sv).1 → nd ∈ sv.1 ∨ builderSound E nd := by
  intro fuel
  induction fuel with
  | zero => intro g res sv nd hm; exact Or.inl hm
  | succ n ih =>
    intro g res sv nd hm
    rw [show topSortPlay E (n + 1) g res sv = topSortStep E (topSortPlay E n) g res sv from rfl]
      at hm
    cases hck : checkNode E g res sv.2 with
    | none => rw [topSortStep, hck] at hm; exact Or.inl hm
    | some node =>
      have hnd := checkNode_sound E g res sv.2 node hck
      by_cases hterm : node.isTerminal = true
      · rw [topSortStep, hck] at hm
        simp only [hterm, if_true] at hm
        rcases pushNode_mem sv.1 node nd hm with hh | hh
        · exact Or.inl hh
        · exact Or.inr (hh ▸ hnd)
      · rw [topSortStep, hck] at hm
        simp only [hterm, Bool.false_eq_true, if_false] at hm
        rcases pushNode_mem _ node nd hm with hh | hh
        · have hloop : ∀ m ∈ (exploreMoves E (topSortPlay E n) g (sv.1, extKey E g :: sv.2)).1,
              m ∈ sv.1 ∨ builderSound E m := by
            refine foldl_preserve
              (fun acc : SV => ∀ m ∈ acc.1, m ∈ sv.1 ∨ builderSound E m) _ _ _ ?_ ?_
            · intro acc b _ hacc m hmm
              rcases ih (E.step g (E.turnInfo g) b).1 (E.step g (E.turnInfo g) b).2 acc m hmm
                with hh2 | hh2
              · exact hacc m hh2
              · exact Or.inr hh2
            · intro m hmm; exact Or.inl hmm
          exact hloop nd hh
        · exact Or.inr (hh ▸ hnd)

/-- The one-state engine behind `C4_illegal_key_cex`. -/
inductive GS4 where
  | gO : GS4
deriving DecidableEq, Repr

/-- A rule-engine instance (modelled from the spec's engine interface) whose
single state fails the mover's legality check (the check `Hex` flags it
illegal) while the reversed player's perspective passes, so the lookahead
keeps the branch. -/
def E4 : Engine GS4 where
  turnInfo _ := Player.P1
  boards _ p :=
    match p with
    | Player.P1 => [Cell.occ Player.P1, Cell.neutral]
    | Player.P2 => [Cell.neutral, Cell.neutral]
  moveHistory _ _ := []
  totalHidden _ _ := 0
  validMoves _ _ := []
  step _ _ _ := (GS4.gO, Res.cont)
  hexIllegal b _ _ := decide (b = [Cell.occ Player.P1, Cell.neutral])
  hexTurn b _ _ := if b = [Cell.neutral, Cell.neutral] then Player.P2 else Player.P1

/-- Counterexample to claim C4 as stated: the builder's map on `E4` holds
exactly one key, and the corresponding state fails the legality check
(`__is_board_legal(board, reverse_player(player), player, h)` is false). -/
theorem C4_illegal_key_cex :
    (buildNodes E4 3 GS4.gO).length = 1 ∧
    isBoardLegal E4 ((buildNodes E4 3 GS4.gO).getD 0 default).board
      (reversePlayer ((buildNodes E4 3 GS4.gO).getD 0 default).player)
      ((buildNodes E4 3 GS4.gO).getD 0 default).player
      ((buildNodes E4 3 GS4.gO).getD 0 default).h = false := by decide

/-! ### The backward inner loop as explicit sums (claims C7 and C9) -/

/-- The `childUtil` the backward pass reads for a successor key in a node
list: the child's `u` from the acting player's perspective, `0` when the key
is absent from the map. -/
def childUtilAt (ns : List Node) (pl : Player) (key : IKey) : ℚ :=
  match findNodeIdx ns key with
  | some j =>
    if (ns.getD j default).player = pl then (ns.getD j default).u else -(ns.getD j default).u
  | none => 0

/-- The total `childUtil` contribution the backward inner loop adds into the
scratch `regret[a]` for one action `a` of a node: the sum over the derived
successor keys, `0` for an occupied or out-of-range cell. -/
def rStep (ns : List Node) (nd : Node) (a : Nat) : ℚ :=
  if nd.board[a]? = some Cell.neutral then
    ((childKeys nd a).map (childUtilAt ns nd.player)).sum
  else 0

/-- The contribution the backward inner loop adds into the node's `u` for one
action `a`: `strategy[a]` times the `childUtil` total. -/
def uStep (ns : List Node) (nd : Node) (a : Nat) : ℚ := nd.strategy.getD a 0 * rStep ns nd a

/-- The total strategy-weighted child utility the backward pass adds into a
node's `u` when its board is undecided. -/
def uContrib (numA : Nat) (ns : List Node) (nd : Node) : ℚ :=
  ((List.range numA).map (uStep ns nd)).sum

theorem findNodeIdx_spec :
    ∀ (ns : List Node) (key : IKey) (j : Nat), findNodeIdx ns key = some j →
      j < ns.length ∧ (ns.getD j default).infoSet = key := by
  intro ns
  induction ns with
  | nil => intro key j hj; simp [findNodeIdx] at hj
  | cons x xs ih =>
    intro key j hj
    rw [findNodeIdx, List.findIdx?_cons] at hj
    by_cases hx : x.infoSet = key
    · simp only [hx, decide_True, if_true] at hj
      obtain rfl : 0 = j := Option.some.inj hj
      exact ⟨Nat.succ_pos _, hx⟩
    · simp only [hx, decide_False, Bool.false_eq_true, if_false, List.findIdx?_succ] at hj
      obtain ⟨j', hj', rfl⟩ := Option.map_eq_some'.mp hj
      obtain ⟨hlt, hkey⟩ := ih key j' hj'
      exact ⟨Nat.succ_lt_succ hlt, hkey⟩

theorem findNodeIdx_congr (v : Node) :
    ∀ (ns : List Node) (i : Nat), v.infoSet = (ns.getD i default).infoSet →
      ∀ key, findNodeIdx (ns.set i v) key = findNodeIdx ns key := by
  intro ns
  induction ns with
  | nil => intro i _ key; rfl
  | cons x xs ih =>
    intro i hv key
    cases i with
    | zero =>
      simp only [List.getD_cons_zero] at hv
      simp only [List.set_cons_zero, findNodeIdx, List.findIdx?_cons, hv]
    | succ n =>
      simp only [List.getD_cons_succ] at hv
      simp only [List.set_cons_succ, findNodeIdx, List.findIdx?_cons]
      by_cases hx : x.infoSet = key
      · simp [hx]
      · simp only [hx, decide_False, Bool.false_eq_true, if_false, List.findIdx?_succ]
        have := ih n hv key
        rw [findNodeIdx, findNodeIdx] at this
        rw [this]

theorem getD_addU_ne (ns : List Node) (i : Nat) (d : ℚ) (k : Nat) (hk : k ≠ i) :
    (addU ns i d).getD k default = ns.getD k default := by
  cases hns : ns[i]? with
  | none => simp [addU, hns]
  | some m =>
    simp only [addU, hns]
    exact getD_set_ne _ _ _ _ _ hk

theorem findNodeIdx_addU (ns : List Node) (i : Nat) (d : ℚ) (key : IKey) :
    findNodeIdx (addU ns i d) key = findNodeIdx ns key := by
  cases hns : ns[i]? with
  | none => simp [addU, hns]
  | some m =>
    simp only [addU, hns]
    refine findNodeIdx_congr _ ns i ?_ key
    rw [List.getD_eq_getElem?_getD, hns]
    rfl

theorem childUtilAt_addU (ns : List Node) (i : Nat) (d : ℚ) (pl : Player) (key : IKey)
    (hne : ¬ findNodeIdx ns key = some i) :
    childUtilAt (addU ns i d) pl key = childUtilAt ns pl key := by
  rw [childUtilAt, childUtilAt, findNodeIdx_addU]
  cases hf : findNodeIdx ns key with
  | none => rfl
  | some j =>
    have hji : j ≠ i := fun hji => hne (hji ▸ hf)
    simp only [getD_addU_ne ns i d j hji]

theorem lt_of_getElem?_some {α : Type} (l : List α) (i : Nat) (m : α) (h : l[i]? = some m) :
    i < l.length := by
  by_contra hc
  rw [List.getElem?_eq_none (Nat.le_of_not_lt hc)] at h
  exact Option.noConfusion h

theorem set_self_of_getElem? (ns : List Node) :
    ∀ (i : Nat) (m : Node), ns[i]? = some m → ns.set i m = ns := by
  induction ns with
  | nil => intro i m hm; rfl
  | cons x xs ih =>
    intro i m hm
    cases i with
    | zero =>
      obtain rfl : x = m := Option.some.inj (by simpa using hm)
      rfl
    | succ n =>
      simp only [List.getElem?_cons_succ] at hm
      simp only [List.set_cons_succ, ih n m hm]

theorem addU_getElem?_ne (ns : List Node) (i : Nat) (d : ℚ) (k : Nat) (hk : k ≠ i) :
    (addU ns i d)[k]? = ns[k]? := by
  cases hns : ns[i]? with
  | none => simp [addU, hns]
  | some m =>
    simp only [addU, hns]
    exact List.getElem?_set_ne (fun hh => hk hh.symm)

theorem addU_getElem?_self (ns : List Node) (i : Nat) (d : ℚ) :
    (addU ns i d)[i]? = ns[i]?.map (fun m => { m with u := m.u + d }) := by
  cases hns : ns[i]? with
  | none => simp [addU, hns]
  | some m =>
    have hlt := lt_of_getElem?_some ns i m hns
    simp only [addU, hns, Option.map_some']
    exact List.getElem?_set_eq_of_lt _ hlt

theorem addU_addU (ns : List Node) (i : Nat) (d1 d2 : ℚ) :
    addU (addU ns i d1) i d2 = addU ns i (d1 + d2) := by
  apply List.ext_getElem?
  intro k
  by_cases hk : k = i
  · subst hk
    rw [addU_getElem?_self, addU_getElem?_self, addU_getElem?_self]
    cases ns[k]? with
    | none => rfl
    | some m => simp [add_assoc]
  · rw [addU_getElem?_ne _ _ _ _ hk, addU_getElem?_ne _ _ _ _ hk, addU_getElem?_ne _ _ _ _ hk]

theorem addU_zero (ns : List Node) (i : Nat) : addU ns i 0 = ns := by
  apply List.ext_getElem?
  intro k
  by_cases hk : k = i
  · subst hk
    rw [addU_getElem?_self]
    cases ns[k]? with
    | none => rfl
    | some m =>
      show some { m with u := m.u + 0 } = some m
      rw [add_zero]
  · rw [addU_getElem?_ne _ _ _ _ hk]

theorem set_occ_ne_self (b : Board) (a : Nat) (q : Player)
    (hg : b[a]? = some Cell.neutral) : ¬ b.set a (Cell.occ q) = b := by
  intro he
  have hcontra : (b.set a (Cell.occ q))[a]? = b[a]? := by rw [he]
  rw [List.getElem?_set_self', hg] at hcontra
  exact Cell.noConfusion (Option.some.inj hcontra)

theorem childKeys_not_self (nd : Node) (ns0 : List Node) (i a : Nat)
    (hb : (ns0.getD i default).board = nd.board)
    (hg : nd.board[a]? = some Cell.neutral) :
    ∀ key ∈ childKeys nd a, ¬ findNodeIdx ns0 key = some i := by
  intro key hkey hf
  obtain ⟨-, hinfo⟩ := findNodeIdx_spec ns0 key i hf
  have hboard : key.2.1 = (ns0.getD i default).board := by
    rw [← hinfo]
    rfl
  rw [hb] at hboard
  replace hboard := hboard.symm
  rcases List.mem_cons.mp hkey with rfl | hkey2
  · exact set_occ_ne_self nd.board a nd.player hg hboard.symm
  · by_cases hpos : 0 < nd.h
    · rw [if_pos hpos] at hkey2
      obtain rfl := List.mem_singleton.mp hkey2
      exact set_occ_ne_self nd.board a (reversePlayer nd.player) hg hboard.symm
    · rw [if_neg hpos] at hkey2
      exact absurd hkey2 (List.not_mem_nil key)

theorem bwdChild_fold (i : Nat) (pl : Player) (sa : ℚ) (ns0 : List Node) (a : Nat) :
    ∀ (KS : List IKey), (∀ key ∈ KS, ¬ findNodeIdx ns0 key = some i) →
      ∀ (δ : ℚ) (r : Nat → ℚ),
        KS.foldl (fun acc2 key => bwdChild i pl sa acc2 a key) (addU ns0 i δ, r)
          = (addU ns0 i (δ + sa * (KS.map (childUtilAt ns0 pl)).sum),
             fun b => r b + (if a = b then (KS.map (childUtilAt ns0 pl)).sum else 0)) := by
  intro KS
  induction KS with
  | nil =>
    intro _ δ r
    rw [List.foldl_nil]
    refine Prod.ext_iff.mpr ⟨?_, ?_⟩
    · rw [List.map_nil, List.sum_nil, mul_zero, add_zero]
    · funext b
      show r b = r b + (if a = b then (0 : ℚ) else 0)
      rw [ite_self, add_zero]
  | cons key KS' ih =>
    intro hkeys δ r
    have hne := hkeys key (List.mem_cons_self key KS')
    rw [List.foldl_cons]
    cases hf : findNodeIdx ns0 key with
    | none =>
      have hstep : bwdChild i pl sa (addU ns0 i δ, r) a key = (addU ns0 i δ, r) := by
        simp only [bwdChild, (findNodeIdx_addU ns0 i δ key).trans hf]
      have hcu : childUtilAt ns0 pl key = 0 := by
        rw [childUtilAt, hf]
      rw [hstep, ih (fun k hk => hkeys k (List.mem_cons_of_mem key hk)) δ r]
      rw [List.map_cons, List.sum_cons, hcu, zero_add]
    | some j =>
      have hji : j ≠ i := fun hji => hne (hji ▸ hf)
      have hcu : childUtilAt ns0 pl key
          = (if ((addU ns0 i δ).getD j default).player = pl then ((addU ns0 i δ).getD j default).u
             else -((addU ns0 i δ).getD j default).u) := by
        rw [childUtilAt, hf, getD_addU_ne ns0 i δ j hji]
      have hstep : bwdChild i pl sa (addU ns0 i δ, r) a key
          = (addU ns0 i (δ + sa * childUtilAt ns0 pl key),
             Function.update r a (r a + childUtilAt ns0 pl key)) := by
        simp only [bwdChild, (findNodeIdx_addU ns0 i δ key).trans hf]
        rw [← hcu, addU_addU]
      rw [hstep, ih (fun k hk => hkeys k (List.mem_cons_of_mem key hk))]
      refine Prod.ext_iff.mpr ⟨?_, ?_⟩
      · rw [List.map_cons, List.sum_cons]
        have harith : δ + sa * childUtilAt ns0 pl key + sa * (List.map (childUtilAt ns0 pl) KS').sum
            = δ + sa * (childUtilAt ns0 pl key + (List.map (childUtilAt ns0 pl) KS').sum) := by
          ring
        rw [harith]
      · funext b
        dsimp only
        rw [List.map_cons, List.sum_cons]
        by_cases hab : b = a
        · subst hab
          rw [Function.update_same, if_pos rfl, if_pos rfl, add_assoc]
        · rw [Function.update_noteq hab, if_neg (fun hh => hab hh.symm),
            if_neg (fun hh => hab hh.symm)]

theorem bwdInner_fold_spec (i : Nat) (nd : Node) (ns0 : List Node)
    (hb : (ns0.getD i default).board = nd.board) :
    ∀ (A : List Nat) (δ : ℚ) (r : Nat → ℚ),
      A.foldl (fun acc a =>
          if nd.board[a]? = some Cell.neutral then
            (childKeys nd a).foldl
              (fun acc2 key => bwdChild i nd.player (nd.strategy.getD a 0) acc2 a key) acc
          else acc) (addU ns0 i δ, r)
        = (addU ns0 i (δ + (A.map (uStep ns0 nd)).sum),
           fun b => r b + ((A.map (fun a => if a = b then rStep ns0 nd a else 0)).sum)) := by
  intro A
  induction A with
  | nil =>
    intro δ r
    rw [List.foldl_nil]
    refine Prod.ext_iff.mpr ⟨?_, ?_⟩
    · rw [List.map_nil, List.sum_nil, add_zero]
    · funext b
      dsimp only
      rw [List.map_nil, List.sum_nil, add_zero]
  | cons a A' ih =>
    intro δ r
    rw [List.foldl_cons]
    by_cases hg : nd.board[a]? = some Cell.neutral
    · rw [if_pos hg]
      have hkeys := childKeys_not_self nd ns0 i a hb hg
      rw [bwdChild_fold i nd.player (nd.strategy.getD a 0) ns0 a (childKeys nd a) hkeys δ r]
      rw [ih]
      have hrs : rStep ns0 nd a = ((childKeys nd a).map (childUtilAt ns0 nd.player)).sum := by
        rw [rStep, if_pos hg]
      refine Prod.ext_iff.mpr ⟨?_, ?_⟩
      · rw [List.map_cons, List.sum_cons]
        have harith : δ + nd.strategy.getD a 0 * ((childKeys nd a).map (childUtilAt ns0 nd.player)).sum
              + (A'.map (uStep ns0 nd)).sum
            = δ + (uStep ns0 nd a + (A'.map (uStep ns0 nd)).sum) := by
          rw [uStep, hrs]
          ring
        rw [harith]
      · funext b
        dsimp only
        rw [List.map_cons, List.sum_cons, hrs, add_assoc]
    · rw [if_neg hg, ih]
      have hrs : rStep ns0 nd a = 0 := by
        rw [rStep, if_neg hg]
      have hus : uStep ns0 nd a = 0 := by
        rw [uStep, hrs, mul_zero]
      refine Prod.ext_iff.mpr ⟨?_, ?_⟩
      · rw [List.map_cons, List.sum_cons, hus, zero_add]
      · funext b
        dsimp only
        rw [List.map_cons, List.sum_cons, hrs, ite_self, zero_add]

theorem bwdInner_spec (numA i : Nat) (nd : Node) (ns0 : List Node) (r : Nat → ℚ)
    (hb : (ns0.getD i default).board = nd.board) :
    bwdInner numA i nd (ns0, r)
      = (addU ns0 i (uContrib numA ns0 nd),
         fun b => r b
           + ((List.range numA).map (fun a => if a = b then rStep ns0 nd a else 0)).sum) := by
  rw [bwdInner]
  have h0 : ((ns0, r) : List Node × (Nat → ℚ)) = (addU ns0 i 0, r) := by rw [addU_zero]
  rw [h0, bwdInner_fold_spec i nd ns0 hb (List.range numA) 0 r, zero_add]
  rfl

theorem setUVal_getD_self (ns : List Node) (i : Nat) (v : ℚ) (m : Node) (hm : ns[i]? = some m) :
    (setUVal ns i v).getD i default = { m with u := v } := by
  simp only [setUVal, hm]
  exact getD_set_eq _ _ _ _ (lt_of_getElem?_some ns i m hm)

theorem addU_getD_self (ns : List Node) (i : Nat) (d : ℚ) (m : Node) (hm : ns[i]? = some m) :
    (addU ns i d).getD i default = { m with u := m.u + d } := by
  rw [List.getD_eq_getElem?_getD, addU_getElem?_self, hm]
  rfl

theorem reset_set_getD_u (X : List Node) (i : Nat) (hX : i < X.length) :
    ((X.set i (resetTransients (X.getD i default))).getD i default).u = (X.getD i default).u := by
  rw [getD_set_eq _ _ _ _ hX]
  rfl

/-- What the backward pass does to the `u` of the node at index `i`: a
declared winner on the node's board sets `u` to `±1`; an undecided board
*accumulates* the strategy-weighted child utilities on top of the previous
`u` (the `u` field is never reset). -/
theorem processBackward_u (gs : Board → Option Player) (numA : Nat)
    (st : List Node × (Nat → ℚ)) (i : Nat) (nd0 : Node) (hnd0 : st.1[i]? = some nd0) :
    ((processBackward gs numA st i).1.getD i default).u
      = match gs nd0.board with
        | some p => if p = nd0.player then 1 else -1
        | none =>
          nd0.u + uContrib numA (st.1.set i (getStrategyNode nd0)) (getStrategyNode nd0) := by
  have hlt : i < st.1.length := lt_of_getElem?_some _ _ _ hnd0
  have hns0get : (st.1.set i (getStrategyNode nd0))[i]? = some (getStrategyNode nd0) :=
    List.getElem?_set_eq_of_lt _ hlt
  have hns0i : (st.1.set i (getStrategyNode nd0)).getD i default = getStrategyNode nd0 :=
    getD_set_eq _ _ _ _ (by simpa using hlt)
  cases hgs : gs nd0.board with
  | some p =>
    have hgs' : gs (getStrategyNode nd0).board = some p := hgs
    simp only [processBackward, hnd0, hgs', hgs]
    rw [reset_set_getD_u _ _ (by rw [length_setUVal, List.length_set]; exact hlt)]
    rw [setUVal_getD_self _ _ _ (getStrategyNode nd0) hns0get]
    rfl
  | none =>
    have hgs' : gs (getStrategyNode nd0).board = none := hgs
    simp only [processBackward, hnd0, hgs', hgs]
    rw [reset_set_getD_u _ _
      (by rw [List.length_set, length_bwdInner, List.length_set]; exact hlt)]
    rw [getD_set_eq _ _ _ _ (by rw [length_bwdInner, List.length_set]; exact hlt)]
    rw [bwdInner_spec numA i (getStrategyNode nd0) (st.1.set i (getStrategyNode nd0)) st.2
      (by rw [hns0i])]
    rw [show ((addU (st.1.set i (getStrategyNode nd0)) i
        (uContrib numA (st.1.set i (getStrategyNode nd0)) (getStrategyNode nd0)),
        fun b => st.2 b + ((List.range numA).map
          (fun a => if a = b then rStep (st.1.set i (getStrategyNode nd0)) (getStrategyNode nd0) a
            else 0)).sum) : List Node × (Nat → ℚ)).1
      = addU (st.1.set i (getStrategyNode nd0)) i
          (uContrib numA (st.1.set i (getStrategyNode nd0)) (getStrategyNode nd0)) from rfl]
    rw [addU_getD_self _ _ _ (getStrategyNode nd0) hns0get]
    rfl

/-- Claim C7 (amended): the backward pass sets a node's `u` from the rule
engine's status of the node's own visible board, not from the `is_terminal`
flag: a declared winner equal to the node's player gives `u = 1`, any other
declared winner gives `u = -1`, and an undecided board — terminal flag or
not — *accumulates* `u += strategy[a] * childUtil` on top of the previous
value instead of setting `u = 0`; so a terminal node whose visible board is
undecided can leave `{-1, 0, 1}` (see `C7_terminal_u_cex`). -/
theorem C7_terminal_u (gs : Board → Option Player) (numA : Nat)
    (st : List Node × (Nat → ℚ)) (i : Nat) (nd0 : Node) (hnd0 : st.1[i]? = some nd0) :
    (gs nd0.board = some nd0.player →
      ((processBackward gs numA st i).1.getD i default).u = 1) ∧
    (∀ p, gs nd0.board = some p → ¬ p = nd0.player →
      ((processBackward gs numA st i).1.getD i default).u = -1) ∧
    (gs nd0.board = none →
      ((processBackward gs numA st i).1.getD i default).u
        = nd0.u + uContrib numA (st.1.set i (getStrategyNode nd0)) (getStrategyNode nd0)) := by
  refine ⟨?_, ?_, ?_⟩
  · intro hgs
    rw [processBackward_u gs numA st i nd0 hnd0, hgs]
    simp
  · intro p hgs hne
    rw [processBackward_u gs numA st i nd0 hnd0, hgs]
    simp [hne]
  · intro hgs
    rw [processBackward_u gs numA st i nd0 hnd0, hgs]

/-- The three states of the engine behind `C7_terminal_u_cex`: a root whose
second move ends the game with a player-2 win on a board that player 2's own
view does not decide, and a sibling state carrying the map-successor of the
terminal node's info set. -/
inductive GS7 where
  | k0 : GS7
  | k1 : GS7
  | k2 : GS7
deriving DecidableEq, Repr

/-- A rule-engine instance (modelled from the spec's engine interface): the
terminal node it produces is flagged `is_terminal` but its visible board is
undecided for the status oracle `gs7`, and a won position for its player
sits in the map as its train-time successor. -/
def E7 : Engine GS7 where
  turnInfo g := match g with | GS7.k1 => Player.P2 | _ => Player.P1
  boards g p :=
    match g, p with
    | GS7.k0, Player.P1 => [Cell.neutral, Cell.occ Player.P2]
    | GS7.k0, Player.P2 => [Cell.neutral, Cell.neutral]
    | GS7.k1, Player.P1 => [Cell.neutral, Cell.occ Player.P2]
    | GS7.k1, Player.P2 => [Cell.occ Player.P2, Cell.neutral]
    | GS7.k2, Player.P1 => [Cell.occ Player.P1, Cell.occ Player.P2]
    | GS7.k2, Player.P2 => [Cell.neutral, Cell.neutral]
  moveHistory _ _ := []
  totalHidden _ _ := 0
  validMoves g _ := match g with | GS7.k0 => [0, 1] | _ => []
  step g _ a :=
    match g, a with
    | GS7.k0, 0 => (GS7.k1, Res.cont)
    | GS7.k0, 1 => (GS7.k2, Res.win Player.P2)
    | _, _ => (GS7.k0, Res.cont)
  hexIllegal _ _ _ := false
  hexTurn b _ _ := if b = [Cell.neutral, Cell.occ Player.P2] then Player.P1 else Player.P2

/-- The status oracle matching `E7`: only the board showing player 2's
winning stone is decided. -/
def gs7 : Board → Option Player := fun b =>
  if b = [Cell.occ Player.P2, Cell.neutral] then some Player.P2 else none

theorem buildNodes_E7 :
    buildNodes E7 4 GS7.k0
      = [mkNode [Cell.neutral, Cell.occ Player.P2] [] Player.P1 0,
         { mkNode [Cell.neutral, Cell.neutral] [] Player.P2 0 with isTerminal := true },
         mkNode [Cell.occ Player.P2, Cell.neutral] [] Player.P2 0] := by decide

/-- Counterexample to claim C7 as stated: on the graph built by `E7`, the
terminal node at index 1 has an undecided visible board, and after one
training iteration its `u` equals `1/2` — it was not set to any of
`+1`, `-1`, `0`. -/
theorem C7_terminal_u_cex :
    ((buildNodes E7 4 GS7.k0).getD 1 default).isTerminal = true ∧
    gs7 ((buildNodes E7 4 GS7.k0).getD 1 default).board = none ∧
    ((trainIter gs7 2 (buildNodes E7 4 GS7.k0, fun _ => 0)).1.getD 1 default).u = 1 / 2 ∧
    ¬ (((trainIter gs7 2 (buildNodes E7 4 GS7.k0, fun _ => 0)).1.getD 1 default).u = 1 ∨
       ((trainIter gs7 2 (buildNodes E7 4 GS7.k0, fun _ => 0)).1.getD 1 default).u = 0 ∨
       ((trainIter gs7 2 (buildNodes E7 4 GS7.k0, fun _ => 0)).1.getD 1 default).u = -1) := by
  have hu : ((trainIter gs7 2 (buildNodes E7 4 GS7.k0, fun _ => 0)).1.getD 1 default).u
      = 1 / 2 := by
    rw [buildNodes_E7]
    norm_num only [trainIter, backwardPass, backSteps, forwardPass, fwdSteps, processForward,
      processBackward, getStrategyNode, computeStrategy, normalizingSum, Node.reach, childKeys,
      findNodeIdx, fwdUpdateChild, bwdInner, bwdChild, addU, setUVal, cfpOf, regretStep,
      applyRegretUpdates, bwFinalize, resetTransients, mkNode, Node.infoSet, gs7,
      List.foldl_cons, List.foldl_nil, List.map_cons, List.map_nil, List.range_succ,
      List.range_zero, List.reverse_cons, List.reverse_nil, List.append_nil, List.nil_append,
      List.cons_append, List.foldl_append, List.length_cons, List.length_nil, List.set,
      List.getD, List.getElem?_cons_zero, List.getElem?_cons_succ, List.getElem?_nil,
      Option.getD_some, Option.getD_none, List.findIdx?_cons, List.findIdx?_nil,
      List.filter_cons, List.filter_nil, List.sum_cons, List.sum_nil,
      List.replicate_succ, List.replicate_zero, List.length_replicate,
      List.get?_cons_zero, List.get?_cons_succ, List.get?_nil, max_self,
      if_true, if_false, decide_True, decide_False, decide_eq_true_eq,
      occ_ne_neutral, neutral_ne_occ, p1_ne_p2, p2_ne_p1, eq_self_iff_true,
      Bool.false_eq_true, Bool.true_eq_false,
      Cell.occ.injEq, Prod.mk.injEq, List.cons.injEq, and_true, true_and, and_false, false_and]
  refine ⟨by decide, by decide, hu, ?_⟩
  rw [hu]
  norm_num

/-- A concrete winner node exercising `C7_terminal_u`. -/
def ndC7w : Node := { mkNode [Cell.occ Player.P1] [] Player.P1 0 with isTerminal := true }

/-- The status oracle declaring `ndC7w`'s board won by player 1. -/
def gsC7w : Board → Option Player := fun b =>
  if b = [Cell.occ Player.P1] then some Player.P1 else none

theorem C7_terminal_u_witness :
    (([ndC7w] : List Node))[0]? = some ndC7w ∧
    gsC7w ndC7w.board = some ndC7w.player ∧
    ((processBackward gsC7w 1 ([ndC7w], fun _ => 0) 0).1.getD 0 default).u = 1 :=
  ⟨by decide, by decide,
    (C7_terminal_u gsC7w 1 ([ndC7w], fun _ => 0) 0 ndC7w (by decide)).1 (by decide)⟩

/-! ### Claim C9: the shared regret scratch is never reset -/

/-- The per-action `childUtil` total one backward-pass node processing adds
into the shared scratch `regret[b]`: zero when the node is absent or its
board is decided, else the child-utility sums of its inner loop. -/
def regretDelta (gs : Board → Option Player) (numA : Nat) (st : List Node × (Nat → ℚ))
    (i b : Nat) : ℚ :=
  match st.1[i]? with
  | none => 0
  | some nd0 =>
    match gs (getStrategyNode nd0).board with
    | some _ => 0
    | none =>
      ((List.range numA).map (fun a =>
        if a = b then rStep (st.1.set i (getStrategyNode nd0)) (getStrategyNode nd0) a
        else 0)).sum

/-- The scratch contributions accumulated over a whole processing order,
each node's measured in the state it is actually processed in. -/
def backStepsDelta (gs : Board → Option Player) (numA : Nat) :
    List Nat → (List Node × (Nat → ℚ)) → Nat → ℚ
  | [], _, _ => 0
  | i :: L, st, b =>
    regretDelta gs numA st i b + backStepsDelta gs numA L (processBackward gs numA st i) b

/-- The scratch contributions accumulated over whole training iterations. -/
def trainDelta (gs : Board → Option Player) (numA : Nat) : Nat → List Node → Nat → ℚ
  | 0, _, _ => 0
  | k + 1, ns, b =>
    trainDelta gs numA k ns b
      + backStepsDelta gs numA (List.range (forwardPass (train gs numA k ns).1).length).reverse
          (forwardPass (train gs numA k ns).1, (train gs numA k ns).2) b

theorem processBackward_regret (gs : Board → Option Player) (numA : Nat)
    (st : List Node × (Nat → ℚ)) (i b : Nat) :
    (processBackward gs numA st i).2 b = st.2 b + regretDelta gs numA st i b := by
  cases hnd0 : st.1[i]? with
  | none =>
    simp only [processBackward, regretDelta, hnd0]
    rw [add_zero]
  | some nd0 =>
    cases hgs : gs (getStrategyNode nd0).board with
    | some p =>
      simp only [processBackward, regretDelta, hnd0, hgs]
      rw [add_zero]
    | none =>
      have hlt : i < st.1.length := lt_of_getElem?_some _ _ _ hnd0
      have hns0i : (st.1.set i (getStrategyNode nd0)).getD i default = getStrategyNode nd0 :=
        getD_set_eq _ _ _ _ (by simpa using hlt)
      simp only [processBackward, regretDelta, hnd0, hgs]
      rw [bwdInner_spec numA i (getStrategyNode nd0) (st.1.set i (getStrategyNode nd0)) st.2
        (by rw [hns0i])]

theorem backSteps_regret (gs : Board → Option Player) (numA : Nat) :
    ∀ (L : List Nat) (st : List Node × (Nat → ℚ)) (b : Nat),
      (backSteps gs numA L st).2 b = st.2 b + backStepsDelta gs numA L st b := by
  intro L
  induction L with
  | nil =>
    intro st b
    rw [backSteps, List.foldl_nil, backStepsDelta, add_zero]
  | cons i L' ih =>
    intro st b
    have hstep : backSteps gs numA (i :: L') st
        = backSteps gs numA L' (processBackward gs numA st i) := by
      rw [backSteps, backSteps, List.foldl_cons]
    rw [hstep, ih, processBackward_regret, backStepsDelta, add_assoc]

/-- Claim C9: within `train()` the per-action scratch `regret` is allocated
once before the iteration loop and no entry is ever reset: after any node
processing, any backward pass, and any number of whole iterations, each
entry equals its previous value plus the `childUtil` contributions of the
nodes processed meanwhile — so the value `regret[a]` used in a node's
`regretSum` update is the sum of all `childUtil` contributions to index `a`
accumulated over every previously processed node of the current and all
earlier iterations, not only this node's own contributions. -/
theorem C9_regret_shared_scratch (gs : Board → Option Player) (numA : Nat) :
    (∀ (st : List Node × (Nat → ℚ)) (i b : Nat),
      (processBackward gs numA st i).2 b = st.2 b + regretDelta gs numA st i b) ∧
    (∀ (L : List Nat) (st : List Node × (Nat → ℚ)) (b : Nat),
      (backSteps gs numA L st).2 b = st.2 b + backStepsDelta gs numA L st b) ∧
    (∀ (k : Nat) (ns : List Node) (b : Nat),
      (train gs numA k ns).2 b = trainDelta gs numA k ns b) := by
  refine ⟨processBackward_regret gs numA, backSteps_regret gs numA, ?_⟩
  intro k
  induction k with
  | zero => intro ns b; rfl
  | succ n ih =>
    intro ns b
    have htr : (train gs numA (n + 1) ns).2
        = (backSteps gs numA
            (List.range (forwardPass (train gs numA n ns).1).length).reverse
            (forwardPass (train gs numA n ns).1, (train gs numA n ns).2)).2 := by
      rw [train, trainIter, backwardPass]
    rw [htr, backSteps_regret, trainDelta]
    rw [show ((forwardPass (train gs numA n ns).1, (train gs numA n ns).2)
        : List Node × (Nat → ℚ)).2 b = (train gs numA n ns).2 b from rfl]
    rw [ih ns b]

/-! ### Claim C10: `getStrategy` touches `strategySum` exactly twice per iteration -/

theorem range_split (n i : Nat) (h : i < n) :
    List.range n = List.range i ++ i :: List.range' (i + 1) (n - (i + 1)) := by
  rw [List.range_eq_range', List.range_eq_range']
  rw [show i :: List.range' (i + 1) (n - (i + 1)) = List.range' i (n - (i + 1) + 1) from
    (List.range'_succ i (n - (i + 1)) 1).symm]
  rw [show List.range' i (n - (i + 1) + 1) = List.range' (0 + i) (n - (i + 1) + 1) from by
    rw [Nat.zero_add]]
  rw [List.range'_append_1 0 i (n - (i + 1) + 1)]
  congr 1
  omega

theorem range_reverse_split (n i : Nat) (h : i < n) :
    (List.range n).reverse
      = (List.range' (i + 1) (n - (i + 1))).reverse ++ i :: (List.range i).reverse := by
  rw [range_split n i h, List.reverse_append, List.reverse_cons, List.append_assoc,
    List.singleton_append]

theorem not_mem_range'_ge (i s n : Nat) (hs : i < s) : i ∉ List.range' s n := by
  intro hm
  obtain ⟨j, -, rfl⟩ := List.mem_range'.mp hm
  omega

theorem fwdSteps_append (L1 L2 : List Nat) (ns : List Node) :
    fwdSteps (L1 ++ L2) ns = fwdSteps L2 (fwdSteps L1 ns) := by
  rw [fwdSteps, fwdSteps, fwdSteps, List.foldl_append]

theorem fwdSteps_cons (j : Nat) (L : List Nat) (ns : List Node) :
    fwdSteps (j :: L) ns = fwdSteps L (processForward ns j) := by
  rw [fwdSteps, fwdSteps, List.foldl_cons]

theorem backSteps_append (gs : Board → Option Player) (numA : Nat) (L1 L2 : List Nat)
    (st : List Node × (Nat → ℚ)) :
    backSteps gs numA (L1 ++ L2) st = backSteps gs numA L2 (backSteps gs numA L1 st) := by
  rw [backSteps, backSteps, backSteps, List.foldl_append]

theorem backSteps_cons (gs : Board → Option Player) (numA : Nat) (j : Nat) (L : List Nat)
    (st : List Node × (Nat → ℚ)) :
    backSteps gs numA (j :: L) st = backSteps gs numA L (processBackward gs numA st j) := by
  rw [backSteps, backSteps, List.foldl_cons]

theorem backSteps_getD_not_mem (gs : Board → Option Player) (numA : Nat) (L : List Nat)
    (st : List Node × (Nat → ℚ)) (k : Nat) (hk : k ∉ L) :
    (backSteps gs numA L st).1.getD k default = st.1.getD k default := by
  rw [List.getD_eq_getElem?_getD, backSteps_frame gs numA L st k hk,
    ← List.getD_eq_getElem?_getD]

theorem fwdUpdateChild_strategySum (ns : List Node) (p : Node) (sa : ℚ) (key : IKey) (k : Nat) :
    ((fwdUpdateChild ns p sa key).getD k default).strategySum
      = (ns.getD k default).strategySum := by
  cases hf : findNodeIdx ns key with
  | none => simp [fwdUpdateChild, hf]
  | some j =>
    obtain ⟨hjlt, -⟩ := findNodeIdx_spec ns key j hf
    simp only [fwdUpdateChild, hf]
    by_cases hk : k = j
    · subst hk
      rw [getD_set_eq _ _ _ _ hjlt]
    · rw [getD_set_ne _ _ _ _ _ hk]

theorem processForward_strategySum_ne (ns : List Node) (i k : Nat) (hk : k ≠ i) :
    ((processForward ns i).getD k default).strategySum = (ns.getD k default).strategySum := by
  cases hns : ns[i]? with
  | none => simp [processForward, hns]
  | some nd0 =>
    simp only [processForward, hns]
    refine foldl_preserve (fun acc : List Node =>
      (acc.getD k default).strategySum = (ns.getD k default).strategySum) _ _ _ ?_ ?_
    · intro acc a _ hacc
      refine foldl_preserve (fun acc2 : List Node =>
        (acc2.getD k default).strategySum = (ns.getD k default).strategySum) _ _ _ ?_ hacc
      intro acc2 key _ hacc2
      rw [fwdUpdateChild_strategySum, hacc2]
    · dsimp only
      rw [getD_set_ne _ _ _ _ _ hk]

theorem processForward_strategySum_self (ns : List Node) (i : Nat) (nd0 : Node)
    (hns : ns[i]? = some nd0) :
    ((processForward ns i).getD i default).strategySum = (getStrategyNode nd0).strategySum := by
  simp only [processForward, hns]
  refine foldl_preserve (fun acc : List Node =>
    (acc.getD i default).strategySum = (getStrategyNode nd0).strategySum) _ _ _ ?_ ?_
  · intro acc a _ hacc
    refine foldl_preserve (fun acc2 : List Node =>
      (acc2.getD i default).strategySum = (getStrategyNode nd0).strategySum) _ _ _ ?_ hacc
    intro acc2 key _ hacc2
    rw [fwdUpdateChild_strategySum, hacc2]
  · dsimp only
    rw [getD_set_eq _ _ _ _ (lt_of_getElem?_some ns i nd0 hns)]

theorem fwdSteps_strategySum_not_mem (L : List Nat) (ns : List Node) (k : Nat) (hk : k ∉ L) :
    ((fwdSteps L ns).getD k default).strategySum = (ns.getD k default).strategySum := by
  refine foldl_preserve (fun acc : List Node =>
    (acc.getD k default).strategySum = (ns.getD k default).strategySum) _ _ _ ?_ rfl
  intro acc j hj hacc
  rw [processForward_strategySum_ne acc j k (fun hh => hk (hh ▸ hj)), hacc]

theorem reset_set_getD_ss (X : List Node) (i : Nat) (hX : i < X.length) :
    ((X.set i (resetTransients (X.getD i default))).getD i default).strategySum
      = (X.getD i default).strategySum := by
  rw [getD_set_eq _ _ _ _ hX]
  rfl

theorem processBackward_strategySum (gs : Board → Option Player) (numA : Nat)
    (st : List Node × (Nat → ℚ)) (i : Nat) (nd0 : Node) (hnd0 : st.1[i]? = some nd0) :
    ((processBackward gs numA st i).1.getD i default).strategySum
      = (getStrategyNode nd0).strategySum := by
  have hlt : i < st.1.length := lt_of_getElem?_some _ _ _ hnd0
  have hns0get : (st.1.set i (getStrategyNode nd0))[i]? = some (getStrategyNode nd0) :=
    List.getElem?_set_eq_of_lt _ hlt
  have hns0i : (st.1.set i (getStrategyNode nd0)).getD i default = getStrategyNode nd0 :=
    getD_set_eq _ _ _ _ (by simpa using hlt)
  cases hgs : gs (getStrategyNode nd0).board with
  | some p =>
    simp only [processBackward, hnd0, hgs]
    rw [reset_set_getD_ss _ _ (by rw [length_setUVal, List.length_set]; exact hlt)]
    rw [setUVal_getD_self _ _ _ (getStrategyNode nd0) hns0get]
  | none =>
    simp only [processBackward, hnd0, hgs]
    rw [reset_set_getD_ss _ _
      (by rw [List.length_set, length_bwdInner, List.length_set]; exact hlt)]
    rw [getD_set_eq _ _ _ _ (by rw [length_bwdInner, List.length_set]; exact hlt)]
    rw [bwdInner_spec numA i (getStrategyNode nd0) (st.1.set i (getStrategyNode nd0)) st.2
      (by rw [hns0i])]
    rw [show ((addU (st.1.set i (getStrategyNode nd0)) i
        (uContrib numA (st.1.set i (getStrategyNode nd0)) (getStrategyNode nd0)),
        fun b => st.2 b + ((List.range numA).map
          (fun a => if a = b then rStep (st.1.set i (getStrategyNode nd0)) (getStrategyNode nd0) a
            else 0)).sum) : List Node × (Nat → ℚ)).1
      = addU (st.1.set i (getStrategyNode nd0)) i
          (uContrib numA (st.1.set i (getStrategyNode nd0)) (getStrategyNode nd0)) from rfl]
    rw [addU_getD_self _ _ _ (getStrategyNode nd0) hns0get]
    rfl

/-- Claim C10: in every training iteration `getStrategy()` is invoked on
every node — terminal nodes included — exactly twice: once when the forward
pass reaches it and once at the start of its backward-pass processing,
before its `visits`/`pSum1`/`pSum2` are reset.  Its `strategySum` after the
iteration is exactly the result of applying the `getStrategy` update to its
state at the backward point, whose `strategySum` is in turn exactly the
`getStrategy` update of its state at the forward point, which still carries
the pre-iteration `strategySum`; each update adds
`strategy[a] * reach` (the node's current reach accumulator) per index. -/
theorem C10_strategySum_twice (gs : Board → Option Player) (numA : Nat)
    (st : List Node × (Nat → ℚ)) (i : Nat) (hi : i < st.1.length) :
    (((trainIter gs numA st).1.getD i default).strategySum
      = (getStrategyNode ((backSteps gs numA
          (List.range' (i + 1) ((forwardPass st.1).length - (i + 1))).reverse
          (forwardPass st.1, st.2)).1.getD i default)).strategySum) ∧
    (((backSteps gs numA
          (List.range' (i + 1) ((forwardPass st.1).length - (i + 1))).reverse
          (forwardPass st.1, st.2)).1.getD i default).strategySum
      = (getStrategyNode ((fwdSteps (List.range i) st.1).getD i default)).strategySum) ∧
    (((fwdSteps (List.range i) st.1).getD i default).strategySum
      = (st.1.getD i default).strategySum) ∧
    (∀ nd : Node, (getStrategyNode nd).strategySum
      = (List.range nd.strategy.length).map
          (fun a => nd.strategySum.getD a 0 + (computeStrategy nd).getD a 0 * nd.reach)) := by
  have hlenF : (forwardPass st.1).length = st.1.length := length_forwardPass st.1
  have hiF : i < (forwardPass st.1).length := by rw [hlenF]; exact hi
  have hnotR' : i ∉ (List.range' (i + 1) ((forwardPass st.1).length - (i + 1))).reverse := by
    rw [List.mem_reverse]
    exact not_mem_range'_ge i (i + 1) _ (Nat.lt_succ_self i)
  have hBlen : (backSteps gs numA
      (List.range' (i + 1) ((forwardPass st.1).length - (i + 1))).reverse
      (forwardPass st.1, st.2)).1.length = st.1.length := by
    rw [length_backSteps]
    exact hlenF
  refine ⟨?_, ?_, ?_, fun nd => rfl⟩
  · have hsplit := range_reverse_split (forwardPass st.1).length i hiF
    have htr : (trainIter gs numA st).1
        = (backSteps gs numA (List.range (forwardPass st.1).length).reverse
            (forwardPass st.1, st.2)).1 := by
      rw [trainIter, backwardPass]
    rw [htr, hsplit, backSteps_append, backSteps_cons]
    rw [backSteps_getD_not_mem gs numA (List.range i).reverse _ i
      (by rw [List.mem_reverse, List.mem_range]; omega)]
    have hBi : (backSteps gs numA
        (List.range' (i + 1) ((forwardPass st.1).length - (i + 1))).reverse
        (forwardPass st.1, st.2)).1[i]?
        = some ((backSteps gs numA
            (List.range' (i + 1) ((forwardPass st.1).length - (i + 1))).reverse
            (forwardPass st.1, st.2)).1.getD i default) := by
      have hiB : i < (backSteps gs numA
          (List.range' (i + 1) ((forwardPass st.1).length - (i + 1))).reverse
          (forwardPass st.1, st.2)).1.length := by rw [hBlen]; exact hi
      rw [List.getD_eq_getElem?_getD, List.getElem?_eq_getElem hiB]
      rfl
    exact processBackward_strategySum gs numA _ i _ hBi
  · rw [backSteps_getD_not_mem gs numA _ _ i hnotR']
    rw [forwardPass]
    rw [range_split st.1.length i hi, fwdSteps_append, fwdSteps_cons]
    have hiFi : i < (fwdSteps (List.range i) st.1).length := by
      rw [length_fwdSteps]
      exact hi
    have hFi : (fwdSteps (List.range i) st.1)[i]?
        = some ((fwdSteps (List.range i) st.1).getD i default) := by
      rw [List.getD_eq_getElem?_getD, List.getElem?_eq_getElem hiFi]
      rfl
    rw [fwdSteps_strategySum_not_mem (List.range' (i + 1) (st.1.length - (i + 1))) _ i
      (not_mem_range'_ge i (i + 1) _ (Nat.lt_succ_self i))]
    exact processForward_strategySum_self _ i _ hFi
  · exact fwdSteps_strategySum_not_mem (List.range i) st.1 i
      (by rw [List.mem_range]; omega)

theorem C10_strategySum_twice_witness :
    0 < ([ndC2] : List Node).length ∧
    (((fwdSteps (List.range 0) [ndC2]).getD 0 default).strategySum
      = (([ndC2] : List Node).getD 0 default).strategySum) :=
  ⟨by simp, (C10_strategySum_twice (fun _ => none) 1 ([ndC2], fun _ => 0) 0 (by simp)).2.2.1⟩

/-! ### Claim C6: the update denominator `T + visits` stays positive -/

theorem fwdUpdateChild_board (ns : List Node) (p : Node) (sa : ℚ) (key : IKey) (k : Nat) :
    ((fwdUpdateChild ns p sa key).getD k default).board = (ns.getD k default).board := by
  cases hf : findNodeIdx ns key with
  | none => simp [fwdUpdateChild, hf]
  | some j =>
    obtain ⟨hjlt, -⟩ := findNodeIdx_spec ns key j hf
    simp only [fwdUpdateChild, hf]
    by_cases hk : k = j
    · subst hk
      rw [getD_set_eq _ _ _ _ hjlt]
    · rw [getD_set_ne _ _ _ _ _ hk]

theorem fwdUpdateChild_T (ns : List Node) (p : Node) (sa : ℚ) (key : IKey) (k : Nat) :
    ((fwdUpdateChild ns p sa key).getD k default).T = (ns.getD k default).T := by
  cases hf : findNodeIdx ns key with
  | none => simp [fwdUpdateChild, hf]
  | some j =>
    obtain ⟨hjlt, -⟩ := findNodeIdx_spec ns key j hf
    simp only [fwdUpdateChild, hf]
    by_cases hk : k = j
    · subst hk
      rw [getD_set_eq _ _ _ _ hjlt]
    · rw [getD_set_ne _ _ _ _ _ hk]

theorem fwdUpdateChild_visits_mono (ns : List Node) (p : Node) (sa : ℚ) (key : IKey)
    (hp : 0 ≤ p.visits) (k : Nat) :
    (ns.getD k default).visits ≤ ((fwdUpdateChild ns p sa key).getD k default).visits := by
  cases hf : findNodeIdx ns key with
  | none => simp [fwdUpdateChild, hf]
  | some j =>
    obtain ⟨hjlt, -⟩ := findNodeIdx_spec ns key j hf
    simp only [fwdUpdateChild, hf]
    by_cases hk : k = j
    · subst hk
      rw [getD_set_eq _ _ _ _ hjlt]
      exact le_add_of_nonneg_right hp
    · rw [getD_set_ne _ _ _ _ _ hk]

theorem processForward_board (ns : List Node) (i k : Nat) :
    ((processForward ns i).getD k default).board = (ns.getD k default).board := by
  cases hns : ns[i]? with
  | none => simp [processForward, hns]
  | some nd0 =>
    have hndi : ns.getD i default = nd0 := by
      rw [List.getD_eq_getElem?_getD, hns]
      rfl
    simp only [processForward, hns]
    refine foldl_preserve (fun acc : List Node =>
      (acc.getD k default).board = (ns.getD k default).board) _ _ _ ?_ ?_
    · intro acc a _ hacc
      refine foldl_preserve (fun acc2 : List Node =>
        (acc2.getD k default).board = (ns.getD k default).board) _ _ _ ?_ hacc
      intro acc2 key _ hacc2
      rw [fwdUpdateChild_board, hacc2]
    · dsimp only
      by_cases hk : k = i
      · subst hk
        rw [getD_set_eq _ _ _ _ (lt_of_getElem?_some ns k nd0 hns), hndi]
        rfl
      · rw [getD_set_ne _ _ _ _ _ hk]

theorem processForward_T (ns : List Node) (i k : Nat) :
    ((processForward ns i).getD k default).T = (ns.getD k default).T := by
  cases hns : ns[i]? with
  | none => simp [processForward, hns]
  | some nd0 =>
    have hndi : ns.getD i default = nd0 := by
      rw [List.getD_eq_getElem?_getD, hns]
      rfl
    simp only [processForward, hns]
    refine foldl_preserve (fun acc : List Node =>
      (acc.getD k default).T = (ns.getD k default).T) _ _ _ ?_ ?_
    · intro acc a _ hacc
      refine foldl_preserve (fun acc2 : List Node =>
        (acc2.getD k default).T = (ns.getD k default).T) _ _ _ ?_ hacc
      intro acc2 key _ hacc2
      rw [fwdUpdateChild_T, hacc2]
    · dsimp only
      by_cases hk : k = i
      · subst hk
        rw [getD_set_eq _ _ _ _ (lt_of_getElem?_some ns k nd0 hns), hndi]
        rfl
      · rw [getD_set_ne _ _ _ _ _ hk]

theorem processForward_visits_mono (ns : List Node) (i : Nat)
    (hnn : ∀ j, 0 ≤ (ns.getD j default).visits) (k : Nat) :
    (ns.getD k default).visits ≤ ((processForward ns i).getD k default).visits := by
  cases hns : ns[i]? with
  | none => simp [processForward, hns]
  | some nd0 =>
    have hndi : ns.getD i default = nd0 := by
      rw [List.getD_eq_getElem?_getD, hns]
      rfl
    have hpv : 0 ≤ (getStrategyNode nd0).visits := by
      have := hnn i
      rw [hndi] at this
      exact this
    simp only [processForward, hns]
    refine foldl_preserve (fun acc : List Node =>
      (ns.getD k default).visits ≤ (acc.getD k default).visits) _ _ _ ?_ ?_
    · intro acc a _ hacc
      refine foldl_preserve (fun acc2 : List Node =>
        (ns.getD k default).visits ≤ (acc2.getD k default).visits) _ _ _ ?_ hacc
      intro acc2 key _ hacc2
      exact le_trans hacc2 (fwdUpdateChild_visits_mono acc2 (getStrategyNode nd0) _ key hpv k)
    · dsimp only
      by_cases hk : k = i
      · subst hk
        rw [getD_set_eq _ _ _ _ (lt_of_getElem?_some ns k nd0 hns), hndi]
        exact le_of_eq rfl
      · rw [getD_set_ne _ _ _ _ _ hk]

theorem fwdSteps_board (L : List Nat) (ns : List Node) (k : Nat) :
    ((fwdSteps L ns).getD k default).board = (ns.getD k default).board := by
  refine foldl_preserve (fun acc : List Node =>
    (acc.getD k default).board = (ns.getD k default).board) _ _ _ ?_ rfl
  intro acc j _ hacc
  rw [processForward_board, hacc]

theorem fwdSteps_T (L : List Nat) (ns : List Node) (k : Nat) :
    ((fwdSteps L ns).getD k default).T = (ns.getD k default).T := by
  refine foldl_preserve (fun acc : List Node =>
    (acc.getD k default).T = (ns.getD k default).T) _ _ _ ?_ rfl
  intro acc j _ hacc
  rw [processForward_T, hacc]

theorem fwdSteps_visits (L : List Nat) (ns : List Node)
    (hnn : ∀ j, 0 ≤ (ns.getD j default).visits) (k : Nat) :
    (ns.getD k default).visits ≤ ((fwdSteps L ns).getD k default).visits ∧
    (∀ j, 0 ≤ ((fwdSteps L ns).getD j default).visits) := by
  refine foldl_preserve (fun acc : List Node =>
    ((ns.getD k default).visits ≤ (acc.getD k default).visits ∧
      (∀ j, 0 ≤ (acc.getD j default).visits))) _ _ _ ?_ ⟨le_refl _, hnn⟩
  intro acc j _ hacc
  refine ⟨le_trans hacc.1 (processForward_visits_mono acc j hacc.2 k), ?_⟩
  intro j'
  exact le_trans (hacc.2 j') (processForward_visits_mono acc j hacc.2 j')

theorem processBackward_board_all (gs : Board → Option Player) (numA : Nat)
    (st : List Node × (Nat → ℚ)) (i k : Nat) :
    ((processBackward gs numA st i).1.getD k default).board = (st.1.getD k default).board := by
  by_cases hk : k = i
  · subst hk
    cases hnd0 : st.1[k]? with
    | none => simp [processBackward, hnd0]
    | some nd0 =>
      have hlt : k < st.1.length := lt_of_getElem?_some _ _ _ hnd0
      have hndi : st.1.getD k default = nd0 := by
        rw [List.getD_eq_getElem?_getD, hnd0]
        rfl
      have hns0get : (st.1.set k (getStrategyNode nd0))[k]? = some (getStrategyNode nd0) :=
        List.getElem?_set_eq_of_lt _ hlt
      have hns0i : (st.1.set k (getStrategyNode nd0)).getD k default = getStrategyNode nd0 :=
        getD_set_eq _ _ _ _ (by simpa using hlt)
      cases hgs : gs (getStrategyNode nd0).board with
      | some p =>
        simp only [processBackward, hnd0, hgs]
        rw [show ∀ X : List Node, ∀ hX : k < X.length,
          ((X.set k (resetTransients (X.getD k default))).getD k default).board
            = (X.getD k default).board from fun X hX => by rw [getD_set_eq _ _ _ _ hX]; rfl]
        · rw [setUVal_getD_self _ _ _ (getStrategyNode nd0) hns0get, hndi]
          rfl
        · rw [length_setUVal, List.length_set]
          exact hlt
      | none =>
        simp only [processBackward, hnd0, hgs]
        rw [show ∀ X : List Node, ∀ hX : k < X.length,
          ((X.set k (resetTransients (X.getD k default))).getD k default).board
            = (X.getD k default).board from fun X hX => by rw [getD_set_eq _ _ _ _ hX]; rfl]
        · rw [getD_set_eq _ _ _ _ (by rw [length_bwdInner, List.length_set]; exact hlt)]
          rw [bwdInner_spec numA k (getStrategyNode nd0) (st.1.set k (getStrategyNode nd0)) st.2
            (by rw [hns0i])]
          rw [show ((addU (st.1.set k (getStrategyNode nd0)) k
              (uContrib numA (st.1.set k (getStrategyNode nd0)) (getStrategyNode nd0)),
              fun b => st.2 b + ((List.range numA).map
                (fun a => if a = b then
                  rStep (st.1.set k (getStrategyNode nd0)) (getStrategyNode nd0) a
                  else 0)).sum) : List Node × (Nat → ℚ)).1
            = addU (st.1.set k (getStrategyNode nd0)) k
                (uContrib numA (st.1.set k (getStrategyNode nd0)) (getStrategyNode nd0))
            from rfl]
          rw [addU_getD_self _ _ _ (getStrategyNode nd0) hns0get, hndi]
          rfl
        · rw [List.length_set, length_bwdInner, List.length_set]
          exact hlt
  · rw [List.getD_eq_getElem?_getD, processBackward_frame gs numA st i k hk,
      ← List.getD_eq_getElem?_getD]

theorem processBackward_T_self (gs : Board → Option Player) (numA : Nat)
    (st : List Node × (Nat → ℚ)) (i : Nat) (nd0 : Node) (hnd0 : st.1[i]? = some nd0) :
    (gs nd0.board = none →
      ((processBackward gs numA st i).1.getD i default).T = nd0.T + nd0.visits) ∧
    (∀ p, gs nd0.board = some p →
      ((processBackward gs numA st i).1.getD i default).T = nd0.T) := by
  have hlt : i < st.1.length := lt_of_getElem?_some _ _ _ hnd0
  have hns0get : (st.1.set i (getStrategyNode nd0))[i]? = some (getStrategyNode nd0) :=
    List.getElem?_set_eq_of_lt _ hlt
  have hns0i : (st.1.set i (getStrategyNode nd0)).getD i default = getStrategyNode nd0 :=
    getD_set_eq _ _ _ _ (by simpa using hlt)
  constructor
  case right =>
    intro p hgs
    have hgs' : gs (getStrategyNode nd0).board = some p := hgs
    simp only [processBackward, hnd0, hgs', hgs]
    rw [show ∀ X : List Node, ∀ hX : i < X.length,
      ((X.set i (resetTransients (X.getD i default))).getD i default).T
        = (X.getD i default).T from fun X hX => by rw [getD_set_eq _ _ _ _ hX]; rfl]
    · rw [setUVal_getD_self _ _ _ (getStrategyNode nd0) hns0get]
      rfl
    · rw [length_setUVal, List.length_set]
      exact hlt
  case left =>
    intro hgs
    have hgs' : gs (getStrategyNode nd0).board = none := hgs
    simp only [processBackward, hnd0, hgs', hgs]
    rw [show ∀ X : List Node, ∀ hX : i < X.length,
      ((X.set i (resetTransients (X.getD i default))).getD i default).T
        = (X.getD i default).T from fun X hX => by rw [getD_set_eq _ _ _ _ hX]; rfl]
    · rw [getD_set_eq _ _ _ _ (by rw [length_bwdInner, List.length_set]; exact hlt)]
      rw [bwdInner_spec numA i (getStrategyNode nd0) (st.1.set i (getStrategyNode nd0)) st.2
        (by rw [hns0i])]
      rw [show ((addU (st.1.set i (getStrategyNode nd0)) i
          (uContrib numA (st.1.set i (getStrategyNode nd0)) (getStrategyNode nd0)),
          fun b => st.2 b + ((List.range numA).map
            (fun a => if a = b then
              rStep (st.1.set i (getStrategyNode nd0)) (getStrategyNode nd0) a
              else 0)).sum) : List Node × (Nat → ℚ)).1
        = addU (st.1.set i (getStrategyNode nd0)) i
            (uContrib numA (st.1.set i (getStrategyNode nd0)) (getStrategyNode nd0))
        from rfl]
      rw [addU_getD_self _ _ _ (getStrategyNode nd0) hns0get]
      rfl
    · rw [List.length_set, length_bwdInner, List.length_set]
      exact hlt

theorem backSteps_board_all (gs : Board → Option Player) (numA : Nat) (L : List Nat)
    (st : List Node × (Nat → ℚ)) (k : Nat) :
    ((backSteps gs numA L st).1.getD k default).board = (st.1.getD k default).board := by
  refine foldl_preserve (fun acc : List Node × (Nat → ℚ) =>
    (acc.1.getD k default).board = (st.1.getD k default).board) _ _ _ ?_ rfl
  intro acc j _ hacc
  rw [processBackward_board_all, hacc]

theorem trainIter_board (gs : Board → Option Player) (numA : Nat)
    (st : List Node × (Nat → ℚ)) (k : Nat) :
    ((trainIter gs numA st).1.getD k default).board = (st.1.getD k default).board := by
  rw [trainIter, backwardPass, backSteps_board_all]
  dsimp only
  rw [forwardPass, fwdSteps_board]

theorem train_board (gs : Board → Option Player) (numA k : Nat) (ns : List Node) (j : Nat) :
    ((train gs numA k ns).1.getD j default).board = (ns.getD j default).board := by
  induction k with
  | zero => rfl
  | succ n ih => rw [train, trainIter_board, ih]

/-- The denominator invariant maintained across training: every node's
`visits` and `T` are nonnegative, and every in-range node whose board the
status oracle leaves undecided — the only branch that runs the
`regretSum[a] = nomin / denom` update — has `T + visits ≥ 1`. -/
def denomInv (gs : Board → Option Player) (ns : List Node) : Prop :=
  (∀ j, 0 ≤ (ns.getD j default).visits ∧ 0 ≤ (ns.getD j default).T) ∧
  (∀ j, j < ns.length → gs (ns.getD j default).board = none →
    1 ≤ (ns.getD j default).T + (ns.getD j default).visits)

theorem fresh_denomInv (gs : Board → Option Player) (ns : List Node)
    (hfresh : ∀ j, j < ns.length →
      (ns.getD j default).visits = 1 ∧ (ns.getD j default).T = 0) :
    denomInv gs ns := by
  constructor
  · intro j
    by_cases hj : j < ns.length
    · obtain ⟨hv, hT⟩ := hfresh j hj
      rw [hv, hT]
      exact ⟨zero_le_one, le_refl 0⟩
    · rw [List.getD_eq_default _ _ (not_lt.mp hj)]
      exact ⟨le_refl 0, le_refl 0⟩
  · intro j hj hstat
    obtain ⟨hv, hT⟩ := hfresh j hj
    rw [hv, hT]
    norm_num

theorem forwardPass_denomInv (gs : Board → Option Player) (ns : List Node)
    (h : denomInv gs ns) : denomInv gs (forwardPass ns) := by
  obtain ⟨h1, h2⟩ := h
  have hnn : ∀ j, 0 ≤ (ns.getD j default).visits := fun j => (h1 j).1
  constructor
  · intro j
    refine ⟨?_, ?_⟩
    · rw [forwardPass]
      exact (fwdSteps_visits (List.range ns.length) ns hnn j).2 j
    · rw [forwardPass, fwdSteps_T]
      exact (h1 j).2
  · intro j hj hstat
    rw [length_forwardPass] at hj
    rw [forwardPass, fwdSteps_board] at hstat
    rw [forwardPass, fwdSteps_T]
    have hmono := (fwdSteps_visits (List.range ns.length) ns hnn j).1
    have hbase := h2 j hj hstat
    linarith

theorem backwardPass_getD (gs : Board → Option Player) (numA : Nat)
    (st : List Node × (Nat → ℚ)) (j : Nat) (hj : j < st.1.length) (nd0 : Node)
    (hnd0 : st.1[j]? = some nd0) :
    ((backwardPass gs numA st).1.getD j default).visits = 0 ∧
    ((backwardPass gs numA st).1.getD j default).board = nd0.board ∧
    (gs nd0.board = none →
      ((backwardPass gs numA st).1.getD j default).T = nd0.T + nd0.visits) ∧
    (∀ p, gs nd0.board = some p →
      ((backwardPass gs numA st).1.getD j default).T = nd0.T) := by
  have hpre : j ∉ (List.range' (j + 1) (st.1.length - (j + 1))).reverse := by
    rw [List.mem_reverse]
    exact not_mem_range'_ge j (j + 1) _ (Nat.lt_succ_self j)
  have hsuf : j ∉ (List.range j).reverse := by
    rw [List.mem_reverse, List.mem_range]
    exact lt_irrefl j
  rw [backwardPass, range_reverse_split st.1.length j hj, backSteps_append, backSteps_cons]
  have hPj : (backSteps gs numA (List.range' (j + 1) (st.1.length - (j + 1))).reverse st).1[j]?
      = some nd0 := by
    rw [backSteps_frame gs numA _ st j hpre]
    exact hnd0
  have hPlen : j <
      (backSteps gs numA (List.range' (j + 1) (st.1.length - (j + 1))).reverse st).1.length := by
    rw [length_backSteps]
    exact hj
  rw [backSteps_getD_not_mem gs numA _ _ j hsuf]
  refine ⟨(processBackward_self_zeroed gs numA _ j hPlen).1, ?_, ?_⟩
  · rw [processBackward_board_all]
    rw [List.getD_eq_getElem?_getD, hPj]
    rfl
  · exact processBackward_T_self gs numA _ j nd0 hPj

theorem backwardPass_denomInv (gs : Board → Option Player) (numA : Nat)
    (st : List Node × (Nat → ℚ)) (h : denomInv gs st.1) :
    denomInv gs (backwardPass gs numA st).1 := by
  obtain ⟨h1, h2⟩ := h
  constructor
  · intro j
    by_cases hj : j < st.1.length
    · cases hnd0 : st.1[j]? with
      | none => exact absurd (List.getElem?_eq_none_iff.mp hnd0) (not_le.mpr hj)
      | some nd0 =>
        have hg : st.1.getD j default = nd0 := by
          rw [List.getD_eq_getElem?_getD, hnd0]
          rfl
        have hB := backwardPass_getD gs numA st j hj nd0 hnd0
        refine ⟨?_, ?_⟩
        · rw [hB.1]
        · cases hgs : gs nd0.board with
          | none =>
            rw [hB.2.2.1 hgs]
            have hh := h1 j
            rw [hg] at hh
            linarith [hh.1, hh.2]
          | some p =>
            rw [hB.2.2.2 p hgs]
            have hh := (h1 j).2
            rw [hg] at hh
            exact hh
    · have hnm : j ∉ (List.range st.1.length).reverse := by
        rw [List.mem_reverse, List.mem_range]
        exact hj
      rw [backwardPass, backSteps_getD_not_mem gs numA _ st j hnm]
      exact h1 j
  · intro j hj hstat
    rw [backwardPass, length_backSteps] at hj
    cases hnd0 : st.1[j]? with
    | none => exact absurd (List.getElem?_eq_none_iff.mp hnd0) (not_le.mpr hj)
    | some nd0 =>
      have hg : st.1.getD j default = nd0 := by
        rw [List.getD_eq_getElem?_getD, hnd0]
        rfl
      have hB := backwardPass_getD gs numA st j hj nd0 hnd0
      rw [hB.2.1] at hstat
      rw [hB.1, hB.2.2.1 hstat, add_zero]
      have hd := h2 j hj
      rw [hg] at hd
      exact hd hstat

theorem train_denomInv (gs : Board → Option Player) (numA : Nat) (ns : List Node)
    (h : denomInv gs ns) (k : Nat) : denomInv gs (train gs numA k ns).1 := by
  induction k with
  | zero => exact h
  | succ n ih =>
    rw [train, trainIter]
    exact backwardPass_denomInv gs numA
      (forwardPass (train gs numA n ns).1, (train gs numA n ns).2)
      (forwardPass_denomInv gs (train gs numA n ns).1 ih)

/-- The state in which the backward pass of one training iteration reaches the
node at index `i`: the forward pass has run on the iteration's input and the
`self.nodes[::-1]` loop has consumed the indices above `i`. -/
def bwdAt (gs : Board → Option Player) (numA : Nat) (st : List Node × (Nat → ℚ))
    (i : Nat) : List Node × (Nat → ℚ) :=
  backSteps gs numA
    (List.range' (i + 1) ((forwardPass st.1).length - (i + 1))).reverse
    (forwardPass st.1, st.2)

/-- **C6.** On a graph whose nodes all start fresh (`visits = 1`, `T = 0`, as
the builder constructs them), whenever the backward pass of any training
iteration reaches a node whose board status is undecided — the only branch
that performs the `regretSum[a] = nomin / denom` division — that node's
denominator `T + visits` is strictly positive, so the update never divides by
zero and a node with `visits = 0` and `T = 0` is never updated. -/
theorem C6_denominator_pos (gs : Board → Option Player) (numA : Nat) (ns : List Node)
    (hfresh : ∀ j, j < ns.length →
      (ns.getD j default).visits = 1 ∧ (ns.getD j default).T = 0)
    (k i : Nat) (hi : i < ns.length)
    (hstat : gs ((ns.getD i default).board) = none) :
    0 < ((bwdAt gs numA (train gs numA k ns) i).1.getD i default).T
        + ((bwdAt gs numA (train gs numA k ns) i).1.getD i default).visits := by
  have hinv : denomInv gs (forwardPass (train gs numA k ns).1) :=
    forwardPass_denomInv gs _ (train_denomInv gs numA ns (fresh_denomInv gs ns hfresh) k)
  have hlenF : (forwardPass (train gs numA k ns).1).length = ns.length := by
    rw [length_forwardPass, length_train]
  have hnm : i ∉ (List.range' (i + 1)
      ((forwardPass (train gs numA k ns).1).length - (i + 1))).reverse := by
    rw [List.mem_reverse]
    exact not_mem_range'_ge i (i + 1) _ (Nat.lt_succ_self i)
  have hboard : ((forwardPass (train gs numA k ns).1).getD i default).board
      = (ns.getD i default).board := by
    rw [forwardPass, fwdSteps_board, train_board]
  have hd := hinv.2 i (by rw [hlenF]; exact hi) (by rw [hboard]; exact hstat)
  rw [bwdAt, backSteps_getD_not_mem gs numA _ _ i hnm]
  dsimp only
  linarith

theorem C6_denominator_pos_witness :
    (∀ j, j < ([ndC2] : List Node).length →
        (([ndC2] : List Node).getD j default).visits = 1 ∧
        (([ndC2] : List Node).getD j default).T = 0) ∧
    0 < ([ndC2] : List Node).length ∧
    0 < ((bwdAt (fun _ => none) 1 (train (fun _ => none) 1 0 [ndC2]) 0).1.getD 0 default).T
        + ((bwdAt (fun _ => none) 1 (train (fun _ => none) 1 0 [ndC2]) 0).1.getD 0 default).visits :=
  ⟨fun j hj => by
      have hj0 : j = 0 := Nat.lt_one_iff.mp hj
      subst hj0
      exact ⟨rfl, rfl⟩,
    by decide,
    C6_denominator_pos (fun _ => none) 1 [ndC2]
      (fun j hj => by
        have hj0 : j = 0 := Nat.lt_one_iff.mp hj
        subst hj0
        exact ⟨rfl, rfl⟩) 0 0 (by decide) rfl⟩

theorem C4_keys_legal_or_lookahead_witness :
    (cNode E4 GS4.gO Res.cont ∈ (topSortPlay E4 3 GS4.gO Res.cont svE).1) ∧
    (cNode E4 GS4.gO Res.cont ∈ svE.1 ∨ builderSound E4 (cNode E4 GS4.gO Res.cont)) :=
  ⟨by decide,
    C4_keys_legal_or_lookahead E4 3 GS4.gO Res.cont svE (cNode E4 GS4.gO Res.cont) (by decide)⟩

end FSICFR
